import Mathlib

/-!
# Verification of the primary replication manager

Shallow embedding of `src/replication/primary_replication_manager.cpp`
(namespace `noisepage::replication`, class `PrimaryReplicationManager`).

The manager's mutable state guarded by `callbacks_mutex_` is modelled as a
`PrimaryState` record; the two entry points that touch it —
`ReplicateBatchOfRecords` (called from the commit path) and `Handle`
(called from the messenger dispatch path on a `TxnAppliedMsg`) — are
modelled as state transformers.  Since the C++ code performs all reads and
mutations of the queue/table under one exclusive lock, an execution of the
system is a sequence of these atomic events; `run` folds a list of events
over a state.

A commit callback `storage::CommitCallback` is a
`(txn_start_time_, fn_, arg_)` triple; the `(fn_, arg_)` pair is opaque to
the manager, so it is modelled by an opaque tag `fn_arg_`.  Invoking a
callback (`cb.fn_(cb.arg_)`) is modelled by appending the callback to the
`invoked` trace.  Network effects (`Send` of a `RecordsBatchMsg`,
`SendAckForMessage`) are modelled as append-only traces `sent` / `acks`;
the buffered-log-writer recycling (`MarkSerialized` /
`empty_buffer_queue_`) is resource management with no bearing on any
claim and is not modelled, as are the trace-logging statements.

`std::unordered_map<timestamp_t, std::unordered_set<std::string>>`
(`txns_applied_on_replicas_`) is modelled as an association list with
unique keys, and each `unordered_set` as a duplicate-free list; the code
only uses membership, size, per-key insertion and per-key erasure, so the
list order is immaterial.
-/

namespace Replication

/-- `storage::CommitCallback`: `(txn_start_time_, fn_, arg_)`.  `fn_arg_` is
an opaque tag standing for the `(fn_, arg_)` pair. -/
structure CommitCallback where
  txn_start_time_ : Nat
  fn_arg_ : Nat
deriving DecidableEq

/-- `BatchOfCommitCallbacks` from `primary_replication_manager.h`: the
callbacks queued together with one record batch plus a `has_records` flag. -/
structure BatchOfCommitCallbacks where
  callbacks_ : List CommitCallback
  has_records_ : Bool
deriving DecidableEq

/-- `transaction::ReplicationPolicy`. -/
inductive ReplicationPolicy where
  | DISABLE
  | ASYNC
  | SYNC
deriving DecidableEq

/-- The applied-tracking table `txns_applied_on_replicas_`:
transaction start timestamp ↦ set of replica identities (routing ids). -/
abbrev AppliedTable := List (Nat × List String)

/-- `unordered_map::find` (first matching key). -/
def lookupTable : AppliedTable → Nat → Option (List String)
  | [], _ => none
  | (k, v) :: rest, txn => if k = txn then some v else lookupTable rest txn

/-- Writing through `unordered_map::at` (replace the value at the key;
touches only the first matching pair). -/
def updateTable : AppliedTable → Nat → List String → AppliedTable
  | [], _, _ => []
  | (k, w) :: rest, txn, v =>
    if k = txn then (txn, v) :: rest else (k, w) :: updateTable rest txn v

/-- `unordered_map::erase` (removes the first matching pair; on a
unique-key table this is exact). -/
def eraseTable : AppliedTable → Nat → AppliedTable
  | [], _ => []
  | (k, w) :: rest, txn => if k = txn then rest else (k, w) :: eraseTable rest txn

/-- `unordered_set::emplace`: idempotent insertion. -/
def insertReplica (s : List String) (r : String) : List String :=
  if r ∈ s then s else s ++ [r]

/-- The manager state protected by `callbacks_mutex_`, together with the
identifier counters and the observable output traces.  The fixed replica
set `replicas_` is passed to each operation as a parameter. -/
structure PrimaryState where
  /-- `txn_callbacks_ : std::queue<BatchOfCommitCallbacks>` (front at head). -/
  txn_callbacks_ : List BatchOfCommitCallbacks
  /-- `txns_applied_on_replicas_`. -/
  txns_applied_on_replicas_ : AppliedTable
  /-- `next_batch_id_` (`std::atomic<record_batch_id_t>`, a 64-bit counter). -/
  next_batch_id_ : Nat
  /-- `ReplicationManager::next_msg_id_` (64-bit counter). -/
  next_message_id_ : Nat
  /-- Trace of invoked commit callbacks, in invocation order. -/
  invoked : List CommitCallback
  /-- Trace of `RecordsBatchMsg` sends: (destination replica, message id, batch id). -/
  sent : List (String × Nat × Nat)
  /-- Trace of `SendAckForMessage` receipts: (destination replica, acked message id). -/
  acks : List (String × Nat)
deriving DecidableEq

/-- Modelled from the spec: the reserved sentinel `INVALID_RECORD_BATCH_ID`
("One reserved sentinel value denotes invalid/no batch and is never
assigned"); its definition lives in a header that is not part of the
visible source.  The sentinel is taken to be 0, the strong-typedef default
invalid value. -/
def INVALID_RECORD_BATCH_ID : Nat := 0

/-- One step of the `next_batch_id_` counter, exactly the body of
`PrimaryReplicationManager::GetNextBatchId`:

    record_batch_id_t next_batch_id = next_batch_id_++;
    if (next_batch_id_.load() == INVALID_RECORD_BATCH_ID) { next_batch_id_++; }
    return next_batch_id;

Returns (returned id, new counter value); `record_batch_id_t` is a 64-bit
integer, so the increments wrap modulo 2^64. -/
def batchIdStep (c : Nat) : Nat × Nat :=
  let c1 := (c + 1) % 2 ^ 64
  (c, if c1 = INVALID_RECORD_BATCH_ID then (c1 + 1) % 2 ^ 64 else c1)

/-- `GetNextBatchId` acting on the manager state. -/
def getNextBatchId (st : PrimaryState) : Nat × PrimaryState :=
  let r := batchIdStep st.next_batch_id_
  (r.1, { st with next_batch_id_ := r.2 })

/-- Modelled from the spec: the initial `next_batch_id_` counter value
(header not in the visible source).  The first issued identifier must not
be the sentinel, so the counter starts at 1. -/
def batchIdCounterAfter : Nat → Nat
  | 0 => 1
  | k + 1 => (batchIdStep (batchIdCounterAfter k)).2

/-- The batch identifier returned by the (k+1)-st call to
`GetNextBatchId` in one manager's lifetime. -/
def batchIdAt (k : Nat) : Nat := (batchIdStep (batchIdCounterAfter k)).1

/-- The `all_replicas_applied` condition of `ProcessTxnCallbacks`:

    (txns_applied_on_replicas_.find(t) != end()) &&
    (txns_applied_on_replicas_.at(t).size() == replicas_.size()) -/
def allReplicasApplied (replicas : List String) (tbl : AppliedTable) (txn : Nat) : Bool :=
  match lookupTable tbl txn with
  | none => false
  | some s => decide (s.length = replicas.length)

/-- Result of scanning one batch's callback vector. -/
structure ScanResult where
  /-- Callbacks remaining in the batch (not erased). -/
  rem : List CommitCallback
  /-- The applied-tracking table after the per-callback erasures. -/
  table : AppliedTable
  /-- Callbacks invoked by this scan, in invocation order. -/
  fired : List CommitCallback
deriving DecidableEq

/-- The inner loop of `ProcessTxnCallbacks` over one batch with records:
for each callback in order, if all replicas applied its transaction,
invoke it, erase the transaction's tracking entry and erase the callback
from the vector; otherwise stop immediately. -/
def processBatchCallbacks (replicas : List String) :
    List CommitCallback → AppliedTable → ScanResult
  | [], tbl => ⟨[], tbl, []⟩
  | cb :: rest, tbl =>
    if allReplicasApplied replicas tbl cb.txn_start_time_ then
      let r := processBatchCallbacks replicas rest (eraseTable tbl cb.txn_start_time_)
      ⟨r.rem, r.table, cb :: r.fired⟩
    else
      ⟨cb :: rest, tbl, []⟩

/-- Result of one drain pass over the queue. -/
structure DrainResult where
  /-- The queue after the pass. -/
  queue : List BatchOfCommitCallbacks
  /-- The applied-tracking table after the pass. -/
  table : AppliedTable
  /-- Callbacks invoked during the pass, in invocation order. -/
  fired : List CommitCallback
deriving DecidableEq

/-- `PrimaryReplicationManager::ProcessTxnCallbacks` (ledger lock held):
drain the queue from the front.  A batch without records has all its
callbacks invoked unconditionally and is popped; a batch with records is
scanned in order and the pass stops at the first callback whose
transaction is not applied on all replicas; a batch whose callbacks are
exhausted is popped and draining continues with the next batch. -/
def processTxnCallbacks (replicas : List String) :
    List BatchOfCommitCallbacks → AppliedTable → DrainResult
  | [], tbl => ⟨[], tbl, []⟩
  | item :: queue, tbl =>
    if item.has_records_ = false then
      let r := processTxnCallbacks replicas queue tbl
      ⟨r.queue, r.table, item.callbacks_ ++ r.fired⟩
    else
      let s := processBatchCallbacks replicas item.callbacks_ tbl
      if s.rem = [] then
        let r := processTxnCallbacks replicas queue s.table
        ⟨r.queue, r.table, s.fired ++ r.fired⟩
      else
        ⟨⟨s.rem, item.has_records_⟩ :: queue, s.table, s.fired⟩

/-- The `find`/`emplace` pair at the start of `Handle`'s critical section:

    if (txns_applied_on_replicas_.find(txn_id) == txns_applied_on_replicas_.end()) {
      txns_applied_on_replicas_.emplace(txn_id, std::unordered_set<std::string>{});
    }

creates an empty applied set for the transaction on its first
notification. -/
def ensureEntry (tbl : AppliedTable) (txn_id : Nat) : AppliedTable :=
  if (lookupTable tbl txn_id).isNone then tbl ++ [(txn_id, [])] else tbl

/-- The applied set for `txn_id` right after
`replicas.emplace(zmq_msg.GetRoutingId())` in `Handle`: the entry's set
with the sender inserted. -/
def appliedAfter (tbl : AppliedTable) (txn_id : Nat) (sender : String) : List String :=
  insertReplica ((lookupTable (ensureEntry tbl txn_id) txn_id).getD []) sender

/-- The applied-tracking table right after `Handle` recorded the sender. -/
def tableAfter (tbl : AppliedTable) (txn_id : Nat) (sender : String) : AppliedTable :=
  updateTable (ensureEntry tbl txn_id) txn_id (appliedAfter tbl txn_id sender)

/-- `PrimaryReplicationManager::Handle(zmq_msg, TxnAppliedMsg)`:
acknowledge receipt (`SendAckForMessage`, recorded in `acks`), record the
sender in the transaction's applied set — `ensureEntry` is the
`find`/`emplace` pair, `appliedAfter`/`tableAfter` the
`replicas.emplace(GetRoutingId())` insertion — and if the set's size now
equals the number of configured replicas, run `ProcessTxnCallbacks`.
`sender` is `zmq_msg.GetRoutingId()`, `txn_id` is `msg.GetAppliedTxnId()`,
`msg_id` is the message identifier echoed by the acknowledgement. -/
def handleTxnApplied (replicas : List String) (st : PrimaryState)
    (sender : String) (msg_id : Nat) (txn_id : Nat) : PrimaryState :=
  if (appliedAfter st.txns_applied_on_replicas_ txn_id sender).length = replicas.length then
    let r := processTxnCallbacks replicas st.txn_callbacks_
      (tableAfter st.txns_applied_on_replicas_ txn_id sender)
    { st with
      acks := st.acks ++ [(sender, msg_id)]
      txn_callbacks_ := r.queue
      txns_applied_on_replicas_ := r.table
      invoked := st.invoked ++ r.fired }
  else
    { st with
      acks := st.acks ++ [(sender, msg_id)]
      txns_applied_on_replicas_ := tableAfter st.txns_applied_on_replicas_ txn_id sender }

/-- `PrimaryReplicationManager::ReplicateBatchOfRecords`.  The record
batch is opaque to the manager; only its presence matters, so it is
modelled as `Option Nat`.  The entry assertion
`NOISEPAGE_ASSERT(policy != DISABLE, ...)` makes the call fail (`none`)
under `DISABLE`.  Under `ASYNC`, or when there is no record batch, every
callback is invoked immediately; otherwise the batch of callbacks is
appended to the queue.  When records are present they are wrapped with
fresh message and batch identifiers and sent to every configured replica. -/
def replicateBatchOfRecords (replicas : List String) (st : PrimaryState)
    (records_batch : Option Nat) (commit_callbacks : List CommitCallback)
    (policy : ReplicationPolicy) : Option PrimaryState :=
  if policy = ReplicationPolicy.DISABLE then
    none
  else
    let has_records := records_batch.isSome
    let st1 :=
      if policy = ReplicationPolicy.ASYNC ∨ has_records = false then
        { st with invoked := st.invoked ++ commit_callbacks }
      else
        { st with txn_callbacks_ := st.txn_callbacks_ ++ [⟨commit_callbacks, has_records⟩] }
    if has_records then
      let msg_id := st1.next_message_id_
      let st2 := { st1 with next_message_id_ := (st1.next_message_id_ + 1) % 2 ^ 64 }
      let r := getNextBatchId st2
      some { r.2 with sent := r.2.sent ++ replicas.map (fun rep => (rep, msg_id, r.1)) }
    else
      some st1

/-- The two kinds of atomic events touching the ledger: a call to
`ReplicateBatchOfRecords` from the commit path, and a `TxnAppliedMsg`
dispatched to `Handle` by the messenger event loop. -/
inductive Event where
  | replicate (records_batch : Option Nat) (commit_callbacks : List CommitCallback)
      (policy : ReplicationPolicy)
  | txnApplied (sender : String) (msg_id : Nat) (txn_id : Nat)
deriving DecidableEq

/-- One event applied to a state (`none` = assertion failure). -/
def step (replicas : List String) (st : PrimaryState) : Event → Option PrimaryState
  | Event.replicate rb cbs pol => replicateBatchOfRecords replicas st rb cbs pol
  | Event.txnApplied s m t => some (handleTxnApplied replicas st s m t)

/-- Fold a list of events over a state. -/
def run (replicas : List String) (st : PrimaryState) : List Event → Option PrimaryState
  | [] => some st
  | e :: es =>
    match step replicas st e with
    | none => none
    | some st1 => run replicas st1 es

/-- The state of a freshly constructed manager: empty ledger, counters at
their initial values (batch counter 1, first id after the sentinel;
message counter modelled from the spec as starting at 0). -/
def initState : PrimaryState :=
  { txn_callbacks_ := []
    txns_applied_on_replicas_ := []
    next_batch_id_ := 1
    next_message_id_ := 0
    invoked := []
    sent := []
    acks := [] }

/-- All commit callbacks of all batches in the queue, front to back. -/
def flattenQ (q : List BatchOfCommitCallbacks) : List CommitCallback :=
  (q.map BatchOfCommitCallbacks.callbacks_).flatten

/-- All commit callbacks handed to `ReplicateBatchOfRecords` across a
sequence of events, in submission order. -/
def submittedList : List Event → List CommitCallback
  | [] => []
  | Event.replicate _ cbs _ :: es => cbs ++ submittedList es
  | Event.txnApplied _ _ _ :: es => submittedList es

/-- The commit callbacks submitted on the queueing path (`SYNC` with a
record batch present), in submission order. -/
def syncSubmitted : List Event → List CommitCallback
  | [] => []
  | Event.replicate rb cbs pol :: es =>
    (if pol = ReplicationPolicy.SYNC ∧ rb ≠ none then cbs else []) ++ syncSubmitted es
  | Event.txnApplied _ _ _ :: es => syncSubmitted es

/-- A table whose keys are pairwise distinct, as `std::unordered_map`
guarantees. -/
def KeysNodup (tbl : AppliedTable) : Prop := (tbl.map Prod.fst).Nodup

/-- `ProcessTxnCallbacks` with the no-records branch marked unreachable:
returns `none` if a drain pass ever reaches a queued batch whose
`has_records_` flag is false. -/
def processTxnCallbacksChecked (replicas : List String) :
    List BatchOfCommitCallbacks → AppliedTable → Option DrainResult
  | [], tbl => some ⟨[], tbl, []⟩
  | item :: queue, tbl =>
    if item.has_records_ = false then
      none
    else
      let s := processBatchCallbacks replicas item.callbacks_ tbl
      if s.rem = [] then
        match processTxnCallbacksChecked replicas queue s.table with
        | none => none
        | some r => some ⟨r.queue, r.table, s.fired ++ r.fired⟩
      else
        some ⟨⟨s.rem, item.has_records_⟩ :: queue, s.table, s.fired⟩

/-! ## Association-table lemmas -/

theorem lookupTable_append_right {tbl : AppliedTable} {k : Nat}
    (h : lookupTable tbl k = none) (v : List String) :
    lookupTable (tbl ++ [(k, v)]) k = some v := by
  induction tbl with
  | nil => simp [lookupTable]
  | cons p rest ih =>
    obtain ⟨k0, v0⟩ := p
    by_cases hk : k0 = k
    · simp [lookupTable, hk] at h
    · simp only [List.cons_append, lookupTable, if_neg hk] at h ⊢
      exact ih h

theorem lookupTable_append_ne {tbl : AppliedTable} {k y : Nat} (h : y ≠ k) (v : List String) :
    lookupTable (tbl ++ [(k, v)]) y = lookupTable tbl y := by
  induction tbl with
  | nil =>
    have hk : ¬k = y := fun hh => h hh.symm
    simp [lookupTable, hk]
  | cons p rest ih =>
    obtain ⟨k0, v0⟩ := p
    by_cases hk : k0 = y
    · simp [lookupTable, hk]
    · simp only [List.cons_append, lookupTable, if_neg hk]
      exact ih

theorem lookupTable_mem {tbl : AppliedTable} {k : Nat} {v : List String}
    (h : lookupTable tbl k = some v) : (k, v) ∈ tbl := by
  induction tbl with
  | nil => simp [lookupTable] at h
  | cons p rest ih =>
    obtain ⟨k0, v0⟩ := p
    by_cases hk : k0 = k
    · subst hk
      simp [lookupTable] at h
      simp [h]
    · simp only [lookupTable, if_neg hk] at h
      exact List.mem_cons_of_mem _ (ih h)

theorem lookupTable_none_iff {tbl : AppliedTable} {k : Nat} :
    lookupTable tbl k = none ↔ k ∉ tbl.map Prod.fst := by
  induction tbl with
  | nil => simp [lookupTable]
  | cons p rest ih =>
    obtain ⟨k0, v0⟩ := p
    by_cases hk : k0 = k
    · subst hk; simp [lookupTable]
    · simp only [lookupTable, if_neg hk, List.map_cons, List.mem_cons, ih]
      constructor
      · intro hnot hmem
        rcases hmem with hmem | hmem
        · exact hk hmem.symm
        · exact hnot hmem
      · intro hnot hmem
        exact hnot (Or.inr hmem)

theorem lookupTable_update_self {tbl : AppliedTable} {k : Nat} {w : List String}
    (h : lookupTable tbl k = some w) (v : List String) :
    lookupTable (updateTable tbl k v) k = some v := by
  induction tbl with
  | nil => simp [lookupTable] at h
  | cons p rest ih =>
    obtain ⟨k0, v0⟩ := p
    by_cases hk : k0 = k
    · simp [updateTable, hk, lookupTable]
    · simp only [lookupTable, if_neg hk] at h
      simp only [updateTable, if_neg hk, lookupTable, if_neg hk]
      exact ih h

theorem lookupTable_update_ne {tbl : AppliedTable} {k y : Nat} (h : y ≠ k) (v : List String) :
    lookupTable (updateTable tbl k v) y = lookupTable tbl y := by
  induction tbl with
  | nil => simp [updateTable]
  | cons p rest ih =>
    obtain ⟨k0, v0⟩ := p
    rw [updateTable]
    by_cases hk : k0 = k
    · have h1 : ¬k = y := fun hh => h hh.symm
      have h2 : ¬k0 = y := fun hh => h (hk.symm.trans hh).symm
      rw [if_pos hk, lookupTable, lookupTable, if_neg h1, if_neg h2]
    · rw [if_neg hk, lookupTable, lookupTable]
      by_cases hy : k0 = y
      · rw [if_pos hy, if_pos hy]
      · rw [if_neg hy, if_neg hy]
        exact ih

theorem updateTable_same {tbl : AppliedTable} {k : Nat} {v : List String}
    (h : lookupTable tbl k = some v) : updateTable tbl k v = tbl := by
  induction tbl with
  | nil => simp [updateTable]
  | cons p rest ih =>
    obtain ⟨k0, v0⟩ := p
    by_cases hk : k0 = k
    · subst hk
      rw [lookupTable, if_pos rfl] at h
      obtain rfl : v0 = v := by simpa using h
      rw [updateTable, if_pos rfl]
    · simp only [lookupTable, if_neg hk] at h
      simp [updateTable, if_neg hk, ih h]

theorem mem_updateTable {tbl : AppliedTable} {k : Nat} {v : List String} {p : Nat × List String}
    (h : p ∈ updateTable tbl k v) : p = (k, v) ∨ p ∈ tbl := by
  induction tbl with
  | nil => simp [updateTable] at h
  | cons q rest ih =>
    obtain ⟨k0, v0⟩ := q
    by_cases hk : k0 = k
    · simp only [updateTable, if_pos hk] at h
      rcases List.mem_cons.mp h with h | h
      · exact Or.inl h
      · exact Or.inr (List.mem_cons_of_mem _ h)
    · simp only [updateTable, if_neg hk] at h
      rcases List.mem_cons.mp h with h | h
      · exact Or.inr (by simp [h])
      · rcases ih h with h | h
        · exact Or.inl h
        · exact Or.inr (List.mem_cons_of_mem _ h)

theorem keys_updateTable (tbl : AppliedTable) (k : Nat) (v : List String) :
    (updateTable tbl k v).map Prod.fst = tbl.map Prod.fst := by
  induction tbl with
  | nil => simp [updateTable]
  | cons p rest ih =>
    obtain ⟨k0, v0⟩ := p
    by_cases hk : k0 = k
    · simp [updateTable, hk]
    · simp [updateTable, if_neg hk, ih]

theorem eraseTable_sublist (tbl : AppliedTable) (k : Nat) :
    List.Sublist (eraseTable tbl k) tbl := by
  induction tbl with
  | nil => simp [eraseTable]
  | cons p rest ih =>
    obtain ⟨k0, v0⟩ := p
    by_cases hk : k0 = k
    · rw [eraseTable, if_pos hk]
      exact List.sublist_cons_self _ _
    · rw [eraseTable, if_neg hk]
      exact List.Sublist.cons₂ _ ih

theorem lookupTable_erase_ne {tbl : AppliedTable} {k y : Nat} (h : y ≠ k) :
    lookupTable (eraseTable tbl k) y = lookupTable tbl y := by
  induction tbl with
  | nil => simp [eraseTable]
  | cons p rest ih =>
    obtain ⟨k0, v0⟩ := p
    rw [eraseTable]
    by_cases hk : k0 = k
    · have h2 : ¬k0 = y := fun hh => h (hk.symm.trans hh).symm
      rw [if_pos hk, lookupTable, if_neg h2]
    · rw [if_neg hk, lookupTable, lookupTable]
      by_cases hy : k0 = y
      · rw [if_pos hy, if_pos hy]
      · rw [if_neg hy, if_neg hy]
        exact ih

theorem lookupTable_erase_self {tbl : AppliedTable} {k : Nat} (h : KeysNodup tbl) :
    lookupTable (eraseTable tbl k) k = none := by
  induction tbl with
  | nil => simp [eraseTable, lookupTable]
  | cons p rest ih =>
    obtain ⟨k0, v0⟩ := p
    rw [KeysNodup, List.map_cons, List.nodup_cons] at h
    by_cases hk : k0 = k
    · subst hk
      rw [eraseTable, if_pos rfl, lookupTable_none_iff]
      exact h.1
    · simp only [eraseTable, if_neg hk, lookupTable, if_neg hk]
      exact ih h.2

theorem lookupTable_erase_some {tbl : AppliedTable} {k y : Nat} {w : List String}
    (hnd : KeysNodup tbl) (h : lookupTable (eraseTable tbl k) y = some w) :
    lookupTable tbl y = some w := by
  by_cases hy : y = k
  · subst hy
    rw [lookupTable_erase_self hnd] at h
    exact absurd h (by simp)
  · rwa [lookupTable_erase_ne hy] at h

theorem keysNodup_erase {tbl : AppliedTable} (h : KeysNodup tbl) (k : Nat) :
    KeysNodup (eraseTable tbl k) :=
  ((eraseTable_sublist tbl k).map Prod.fst).nodup h

theorem keysNodup_update {tbl : AppliedTable} (h : KeysNodup tbl) (k : Nat) (v : List String) :
    KeysNodup (updateTable tbl k v) := by
  rw [KeysNodup, keys_updateTable]
  exact h

/-! ## `insertReplica` lemmas -/

theorem insertReplica_mem_self (s : List String) (r : String) : r ∈ insertReplica s r := by
  rw [insertReplica]
  split
  · assumption
  · simp

theorem insertReplica_of_mem {s : List String} {r : String} (h : r ∈ s) :
    insertReplica s r = s := by
  rw [insertReplica, if_pos h]

theorem insertReplica_nodup {s : List String} (h : s.Nodup) (r : String) :
    (insertReplica s r).Nodup := by
  rw [insertReplica]
  split
  · exact h
  · next hr =>
    refine List.Nodup.append h (List.nodup_singleton r) ?_
    intro a ha hb
    rw [List.mem_singleton] at hb
    subst hb
    exact hr ha

theorem mem_insertReplica {s : List String} {r x : String} (h : x ∈ insertReplica s r) :
    x ∈ s ∨ x = r := by
  rw [insertReplica] at h
  split at h
  · exact Or.inl h
  · simpa using h

/-! ## Batch identifier counter (C6) -/

theorem batchIdCounterAfter_eq (k : Nat) :
    batchIdCounterAfter k = k % (2 ^ 64 - 1) + 1 := by
  have h64 : (2 : Nat) ^ 64 = 18446744073709551616 := by norm_num
  induction k with
  | zero => simp [batchIdCounterAfter]
  | succ k ih =>
    rw [batchIdCounterAfter, ih]
    show (if (k % (2 ^ 64 - 1) + 1 + 1) % 2 ^ 64 = INVALID_RECORD_BATCH_ID
          then ((k % (2 ^ 64 - 1) + 1 + 1) % 2 ^ 64 + 1) % 2 ^ 64
          else (k % (2 ^ 64 - 1) + 1 + 1) % 2 ^ 64) = (k + 1) % (2 ^ 64 - 1) + 1
    rw [INVALID_RECORD_BATCH_ID, h64]
    split <;> omega

theorem batchIdAt_eq (k : Nat) : batchIdAt k = k % (2 ^ 64 - 1) + 1 :=
  batchIdCounterAfter_eq k

/-- C6 (counterexample): the claim "batch identifiers are strictly
increasing and never reused within one manager's lifetime" fails on the
code once the 64-bit counter wraps: call number 2^64 - 2 (0-based) returns
the identifier 2^64 - 1, and the very next call returns 1 again — the
identifier issued by the first call — so the sequence is neither strictly
increasing nor reuse-free. -/
theorem getNextBatchId_wraparound_reuse :
    batchIdAt (2 ^ 64 - 2) = 2 ^ 64 - 1 ∧ batchIdAt (2 ^ 64 - 1) = 1 ∧ batchIdAt 0 = 1 := by
  refine ⟨?_, ?_, ?_⟩ <;> rw [batchIdAt_eq] <;> norm_num

/-- C6 (amended): within the first 2^64 - 1 calls to `GetNextBatchId` —
i.e. before the 64-bit counter wraps around — the returned batch
identifiers are strictly increasing and never equal the reserved
invalid-batch sentinel; and when the counter does wrap, it skips over the
sentinel (stepping the counter from its maximal value 2^64 - 1 yields
counter value 1, not the sentinel 0). -/
theorem getNextBatchId_strictly_increasing_before_wrap :
    (∀ i j, i < j → j < 2 ^ 64 - 1 →
      batchIdAt i < batchIdAt j ∧ batchIdAt i ≠ INVALID_RECORD_BATCH_ID) ∧
    batchIdStep (2 ^ 64 - 1) = (2 ^ 64 - 1, 1) := by
  have h64 : (2 : Nat) ^ 64 = 18446744073709551616 := by norm_num
  constructor
  · intro i j hij hj
    rw [batchIdAt_eq, batchIdAt_eq, INVALID_RECORD_BATCH_ID]
    rw [h64] at hj ⊢
    omega
  · show (2 ^ 64 - 1, if (2 ^ 64 - 1 + 1) % 2 ^ 64 = INVALID_RECORD_BATCH_ID
      then ((2 ^ 64 - 1 + 1) % 2 ^ 64 + 1) % 2 ^ 64 else (2 ^ 64 - 1 + 1) % 2 ^ 64)
      = (2 ^ 64 - 1, 1)
    rw [INVALID_RECORD_BATCH_ID, h64]
    norm_num

/-- Witness for `getNextBatchId_strictly_increasing_before_wrap` at
`i = 0`, `j = 1`. -/
theorem getNextBatchId_strictly_increasing_before_wrap_witness :
    (0 : Nat) < 1 ∧ (1 : Nat) < 2 ^ 64 - 1 ∧
    (batchIdAt 0 < batchIdAt 1 ∧ batchIdAt 0 ≠ INVALID_RECORD_BATCH_ID) :=
  ⟨by norm_num, by norm_num,
    getNextBatchId_strictly_increasing_before_wrap.1 0 1 (by norm_num) (by norm_num)⟩

/-! ## C8: `DISABLE` is a fatal contract violation -/

/-- C8: calling `ReplicateBatchOfRecords` with policy `DISABLE` trips the
entry-point assertion (the call aborts and has no successor state), and
under the precondition `policy ≠ DISABLE` the assertion-failure branch is
unreachable: the call always produces a successor state. -/
theorem replicateBatch_disable_contract (replicas : List String) (st : PrimaryState)
    (rb : Option Nat) (cbs : List CommitCallback) :
    replicateBatchOfRecords replicas st rb cbs ReplicationPolicy.DISABLE = none ∧
    ∀ pol, pol ≠ ReplicationPolicy.DISABLE →
      (replicateBatchOfRecords replicas st rb cbs pol).isSome = true := by
  constructor
  · simp [replicateBatchOfRecords]
  · intro pol hpol
    cases rb <;> simp [replicateBatchOfRecords, hpol]

/-- Witness for `replicateBatch_disable_contract` with `pol = SYNC`. -/
theorem replicateBatch_disable_contract_witness :
    ReplicationPolicy.SYNC ≠ ReplicationPolicy.DISABLE ∧
    (replicateBatchOfRecords ["A"] initState (some 0) [] ReplicationPolicy.SYNC).isSome
      = true :=
  ⟨by decide,
    (replicateBatch_disable_contract ["A"] initState (some 0) []).2
      ReplicationPolicy.SYNC (by decide)⟩

/-! ## C3: `ASYNC` / record-less batches fire immediately -/

/-- C3: for every call to `ReplicateBatchOfRecords` with policy `ASYNC` or
with a null record batch (and `policy ≠ DISABLE`, which is C8's fatal
case), the call succeeds, every supplied commit callback is invoked before
the call returns — exactly once, in the order supplied (the invocation
trace is extended by exactly the supplied list) — and the callback ledger
queue is unchanged (no entry is added). -/
theorem replicateBatch_async_or_recordless_immediate (replicas : List String)
    (st : PrimaryState) (rb : Option Nat) (cbs : List CommitCallback)
    (pol : ReplicationPolicy) (hpol : pol ≠ ReplicationPolicy.DISABLE)
    (h : pol = ReplicationPolicy.ASYNC ∨ rb = none) :
    ∃ st1, replicateBatchOfRecords replicas st rb cbs pol = some st1 ∧
      st1.invoked = st.invoked ++ cbs ∧
      st1.txn_callbacks_ = st.txn_callbacks_ := by
  cases pol with
  | DISABLE => exact absurd rfl hpol
  | ASYNC =>
    cases rb with
    | none => exact ⟨_, rfl, rfl, rfl⟩
    | some n => exact ⟨_, rfl, rfl, rfl⟩
  | SYNC =>
    rcases h with h | h
    · exact absurd h (by decide)
    · subst h
      exact ⟨_, rfl, rfl, rfl⟩

/-- Witness for `replicateBatch_async_or_recordless_immediate`: an `ASYNC`
batch with records, one callback. -/
theorem replicateBatch_async_or_recordless_immediate_witness :
    ReplicationPolicy.ASYNC ≠ ReplicationPolicy.DISABLE ∧
    (ReplicationPolicy.ASYNC = ReplicationPolicy.ASYNC ∨ (some 0 : Option Nat) = none) ∧
    ∃ st1, replicateBatchOfRecords ["A"] initState (some 0) [⟨3, 1⟩]
        ReplicationPolicy.ASYNC = some st1 ∧
      st1.invoked = initState.invoked ++ [⟨3, 1⟩] ∧
      st1.txn_callbacks_ = initState.txn_callbacks_ :=
  ⟨by decide, Or.inl rfl,
    replicateBatch_async_or_recordless_immediate ["A"] initState (some 0) [⟨3, 1⟩]
      ReplicationPolicy.ASYNC (by decide) (Or.inl rfl)⟩

/-! ## Drain-pass lemmas: the inner scan `processBatchCallbacks` -/

theorem allReplicasApplied_iff {replicas : List String} {tbl : AppliedTable} {t : Nat} :
    allReplicasApplied replicas tbl t = true ↔
      ∃ w, lookupTable tbl t = some w ∧ w.length = replicas.length := by
  rw [allReplicasApplied]
  cases h : lookupTable tbl t with
  | none => simp [h]
  | some w => simp [h]

theorem pbc_fire_rem {replicas : List String} {cb : CommitCallback} {rest : List CommitCallback}
    {tbl : AppliedTable} (h : allReplicasApplied replicas tbl cb.txn_start_time_ = true) :
    (processBatchCallbacks replicas (cb :: rest) tbl).rem
      = (processBatchCallbacks replicas rest (eraseTable tbl cb.txn_start_time_)).rem := by
  rw [processBatchCallbacks, if_pos h]

theorem pbc_fire_table {replicas : List String} {cb : CommitCallback} {rest : List CommitCallback}
    {tbl : AppliedTable} (h : allReplicasApplied replicas tbl cb.txn_start_time_ = true) :
    (processBatchCallbacks replicas (cb :: rest) tbl).table
      = (processBatchCallbacks replicas rest (eraseTable tbl cb.txn_start_time_)).table := by
  rw [processBatchCallbacks, if_pos h]

theorem pbc_fire_fired {replicas : List String} {cb : CommitCallback} {rest : List CommitCallback}
    {tbl : AppliedTable} (h : allReplicasApplied replicas tbl cb.txn_start_time_ = true) :
    (processBatchCallbacks replicas (cb :: rest) tbl).fired
      = cb :: (processBatchCallbacks replicas rest (eraseTable tbl cb.txn_start_time_)).fired := by
  rw [processBatchCallbacks, if_pos h]

theorem pbc_stop_eq {replicas : List String} {cb : CommitCallback} {rest : List CommitCallback}
    {tbl : AppliedTable} (h : ¬allReplicasApplied replicas tbl cb.txn_start_time_ = true) :
    processBatchCallbacks replicas (cb :: rest) tbl = ⟨cb :: rest, tbl, []⟩ := by
  rw [processBatchCallbacks, if_neg h]

theorem processBatchCallbacks_conserves (replicas : List String) (cbs : List CommitCallback)
    (tbl : AppliedTable) :
    cbs = (processBatchCallbacks replicas cbs tbl).fired
      ++ (processBatchCallbacks replicas cbs tbl).rem := by
  induction cbs generalizing tbl with
  | nil => rfl
  | cons cb rest ih =>
    rw [processBatchCallbacks]
    split
    · have := ih (eraseTable tbl cb.txn_start_time_)
      simpa using this
    · rfl

theorem processBatchCallbacks_keysNodup (replicas : List String) (cbs : List CommitCallback)
    {tbl : AppliedTable} (hnd : KeysNodup tbl) :
    KeysNodup (processBatchCallbacks replicas cbs tbl).table := by
  induction cbs generalizing tbl with
  | nil => exact hnd
  | cons cb rest ih =>
    rw [processBatchCallbacks]
    split
    · exact ih (keysNodup_erase hnd _)
    · exact hnd

theorem processBatchCallbacks_table_lookup (replicas : List String) (cbs : List CommitCallback)
    {tbl : AppliedTable} (hnd : KeysNodup tbl) {y : Nat} {w : List String}
    (h : lookupTable (processBatchCallbacks replicas cbs tbl).table y = some w) :
    lookupTable tbl y = some w := by
  induction cbs generalizing tbl with
  | nil => exact h
  | cons cb rest ih =>
    rw [processBatchCallbacks] at h
    split at h
    · exact lookupTable_erase_some hnd (ih (keysNodup_erase hnd _) h)
    · exact h

theorem processBatchCallbacks_fired_applied (replicas : List String) (cbs : List CommitCallback)
    {tbl : AppliedTable} (hnd : KeysNodup tbl) :
    ∀ c ∈ (processBatchCallbacks replicas cbs tbl).fired,
      ∃ w, lookupTable tbl c.txn_start_time_ = some w ∧ w.length = replicas.length := by
  induction cbs generalizing tbl with
  | nil => intro c hc; exact absurd hc (by simp [processBatchCallbacks])
  | cons cb rest ih =>
    intro c hc
    rw [processBatchCallbacks] at hc
    split at hc
    · next hcond =>
      rcases List.mem_cons.mp hc with rfl | hc
      · exact allReplicasApplied_iff.mp hcond
      · obtain ⟨w, hw, hlen⟩ := ih (keysNodup_erase hnd _) c hc
        exact ⟨w, lookupTable_erase_some hnd hw, hlen⟩
    · exact absurd hc (by simp)

theorem processBatchCallbacks_rem_shape (replicas : List String) (cbs : List CommitCallback)
    (tbl : AppliedTable) :
    (processBatchCallbacks replicas cbs tbl).rem = [] ∨
    ∃ c rest2, (processBatchCallbacks replicas cbs tbl).rem = c :: rest2 ∧
      allReplicasApplied replicas (processBatchCallbacks replicas cbs tbl).table
        c.txn_start_time_ = false := by
  induction cbs generalizing tbl with
  | nil => exact Or.inl rfl
  | cons cb rest ih =>
    rw [processBatchCallbacks]
    split
    · exact ih (eraseTable tbl cb.txn_start_time_)
    · next hcond =>
      exact Or.inr ⟨cb, rest, rfl, Bool.not_eq_true _ ▸ (by simpa using hcond)⟩

theorem processBatchCallbacks_erased_key (replicas : List String) (cbs : List CommitCallback)
    {tbl : AppliedTable} (hnd : KeysNodup tbl) {y : Nat} {w : List String}
    (hsome : lookupTable tbl y = some w)
    (hnone : lookupTable (processBatchCallbacks replicas cbs tbl).table y = none) :
    ∃ c ∈ (processBatchCallbacks replicas cbs tbl).fired, c.txn_start_time_ = y := by
  induction cbs generalizing tbl w with
  | nil =>
    rw [show (processBatchCallbacks replicas [] tbl).table = tbl from rfl, hsome] at hnone
    exact absurd hnone (by simp)
  | cons cb rest ih =>
    by_cases hcond : allReplicasApplied replicas tbl cb.txn_start_time_ = true
    · rw [pbc_fire_table hcond] at hnone
      rw [pbc_fire_fired hcond]
      by_cases hy : y = cb.txn_start_time_
      · exact ⟨cb, by simp, hy.symm⟩
      · have hsome2 : lookupTable (eraseTable tbl cb.txn_start_time_) y = some w := by
          rwa [lookupTable_erase_ne hy]
        obtain ⟨c, hc, hct⟩ := ih (keysNodup_erase hnd _) hsome2 hnone
        exact ⟨c, List.mem_cons_of_mem _ hc, hct⟩
    · rw [pbc_stop_eq hcond, hsome] at hnone
      exact absurd hnone (by simp)

/-! ## Drain-pass lemmas: `processTxnCallbacks` -/

theorem flattenQ_nil : flattenQ [] = [] := rfl

theorem flattenQ_cons (b : BatchOfCommitCallbacks) (q : List BatchOfCommitCallbacks) :
    flattenQ (b :: q) = b.callbacks_ ++ flattenQ q := by
  simp [flattenQ]

theorem ptc_norec_queue {replicas : List String} {item : BatchOfCommitCallbacks}
    {q : List BatchOfCommitCallbacks} {tbl : AppliedTable} (h : item.has_records_ = false) :
    (processTxnCallbacks replicas (item :: q) tbl).queue
      = (processTxnCallbacks replicas q tbl).queue := by
  rw [processTxnCallbacks, if_pos h]

theorem ptc_norec_table {replicas : List String} {item : BatchOfCommitCallbacks}
    {q : List BatchOfCommitCallbacks} {tbl : AppliedTable} (h : item.has_records_ = false) :
    (processTxnCallbacks replicas (item :: q) tbl).table
      = (processTxnCallbacks replicas q tbl).table := by
  rw [processTxnCallbacks, if_pos h]

theorem ptc_norec_fired {replicas : List String} {item : BatchOfCommitCallbacks}
    {q : List BatchOfCommitCallbacks} {tbl : AppliedTable} (h : item.has_records_ = false) :
    (processTxnCallbacks replicas (item :: q) tbl).fired
      = item.callbacks_ ++ (processTxnCallbacks replicas q tbl).fired := by
  rw [processTxnCallbacks, if_pos h]

theorem ptc_done_queue {replicas : List String} {item : BatchOfCommitCallbacks}
    {q : List BatchOfCommitCallbacks} {tbl : AppliedTable} (h : ¬item.has_records_ = false)
    (hrem : (processBatchCallbacks replicas item.callbacks_ tbl).rem = []) :
    (processTxnCallbacks replicas (item :: q) tbl).queue
      = (processTxnCallbacks replicas q
          (processBatchCallbacks replicas item.callbacks_ tbl).table).queue := by
  rw [processTxnCallbacks, if_neg h, if_pos hrem]

theorem ptc_done_table {replicas : List String} {item : BatchOfCommitCallbacks}
    {q : List BatchOfCommitCallbacks} {tbl : AppliedTable} (h : ¬item.has_records_ = false)
    (hrem : (processBatchCallbacks replicas item.callbacks_ tbl).rem = []) :
    (processTxnCallbacks replicas (item :: q) tbl).table
      = (processTxnCallbacks replicas q
          (processBatchCallbacks replicas item.callbacks_ tbl).table).table := by
  rw [processTxnCallbacks, if_neg h, if_pos hrem]

theorem ptc_done_fired {replicas : List String} {item : BatchOfCommitCallbacks}
    {q : List BatchOfCommitCallbacks} {tbl : AppliedTable} (h : ¬item.has_records_ = false)
    (hrem : (processBatchCallbacks replicas item.callbacks_ tbl).rem = []) :
    (processTxnCallbacks replicas (item :: q) tbl).fired
      = (processBatchCallbacks replicas item.callbacks_ tbl).fired
        ++ (processTxnCallbacks replicas q
            (processBatchCallbacks replicas item.callbacks_ tbl).table).fired := by
  rw [processTxnCallbacks, if_neg h, if_pos hrem]

theorem ptc_stop_queue {replicas : List String} {item : BatchOfCommitCallbacks}
    {q : List BatchOfCommitCallbacks} {tbl : AppliedTable} (h : ¬item.has_records_ = false)
    (hrem : ¬(processBatchCallbacks replicas item.callbacks_ tbl).rem = []) :
    (processTxnCallbacks replicas (item :: q) tbl).queue
      = ⟨(processBatchCallbacks replicas item.callbacks_ tbl).rem, item.has_records_⟩ :: q := by
  rw [processTxnCallbacks, if_neg h, if_neg hrem]

theorem ptc_stop_table {replicas : List String} {item : BatchOfCommitCallbacks}
    {q : List BatchOfCommitCallbacks} {tbl : AppliedTable} (h : ¬item.has_records_ = false)
    (hrem : ¬(processBatchCallbacks replicas item.callbacks_ tbl).rem = []) :
    (processTxnCallbacks replicas (item :: q) tbl).table
      = (processBatchCallbacks replicas item.callbacks_ tbl).table := by
  rw [processTxnCallbacks, if_neg h, if_neg hrem]

theorem ptc_stop_fired {replicas : List String} {item : BatchOfCommitCallbacks}
    {q : List BatchOfCommitCallbacks} {tbl : AppliedTable} (h : ¬item.has_records_ = false)
    (hrem : ¬(processBatchCallbacks replicas item.callbacks_ tbl).rem = []) :
    (processTxnCallbacks replicas (item :: q) tbl).fired
      = (processBatchCallbacks replicas item.callbacks_ tbl).fired := by
  rw [processTxnCallbacks, if_neg h, if_neg hrem]

theorem processTxnCallbacks_conserves (replicas : List String)
    (q : List BatchOfCommitCallbacks) (tbl : AppliedTable) :
    flattenQ q = (processTxnCallbacks replicas q tbl).fired
      ++ flattenQ (processTxnCallbacks replicas q tbl).queue := by
  induction q generalizing tbl with
  | nil => rfl
  | cons item queue ih =>
    by_cases hb : item.has_records_ = false
    · rw [flattenQ_cons, ptc_norec_fired hb, ptc_norec_queue hb, ih tbl, List.append_assoc]
    · by_cases hrem : (processBatchCallbacks replicas item.callbacks_ tbl).rem = []
      · rw [flattenQ_cons, ptc_done_fired hb hrem, ptc_done_queue hb hrem]
        conv_lhs => rw [processBatchCallbacks_conserves replicas item.callbacks_ tbl, hrem]
        rw [List.append_nil,
          ih ((processBatchCallbacks replicas item.callbacks_ tbl).table), List.append_assoc]
      · rw [flattenQ_cons, ptc_stop_fired hb hrem, ptc_stop_queue hb hrem, flattenQ_cons]
        conv_lhs => rw [processBatchCallbacks_conserves replicas item.callbacks_ tbl]
        rw [List.append_assoc]

theorem processTxnCallbacks_keysNodup (replicas : List String)
    (q : List BatchOfCommitCallbacks) {tbl : AppliedTable} (hnd : KeysNodup tbl) :
    KeysNodup (processTxnCallbacks replicas q tbl).table := by
  induction q generalizing tbl with
  | nil => exact hnd
  | cons item queue ih =>
    rw [processTxnCallbacks]
    by_cases hb : item.has_records_ = false
    · rw [if_pos hb]; exact ih hnd
    · rw [if_neg hb]
      by_cases hrem : (processBatchCallbacks replicas item.callbacks_ tbl).rem = []
      · rw [if_pos hrem]
        exact ih (processBatchCallbacks_keysNodup replicas item.callbacks_ hnd)
      · rw [if_neg hrem]
        exact processBatchCallbacks_keysNodup replicas item.callbacks_ hnd

theorem processTxnCallbacks_table_lookup (replicas : List String)
    (q : List BatchOfCommitCallbacks) {tbl : AppliedTable} (hnd : KeysNodup tbl)
    {y : Nat} {w : List String}
    (h : lookupTable (processTxnCallbacks replicas q tbl).table y = some w) :
    lookupTable tbl y = some w := by
  induction q generalizing tbl with
  | nil => exact h
  | cons item queue ih =>
    rw [processTxnCallbacks] at h
    by_cases hb : item.has_records_ = false
    · rw [if_pos hb] at h; exact ih hnd h
    · rw [if_neg hb] at h
      by_cases hrem : (processBatchCallbacks replicas item.callbacks_ tbl).rem = []
      · rw [if_pos hrem] at h
        exact processBatchCallbacks_table_lookup replicas item.callbacks_ hnd
          (ih (processBatchCallbacks_keysNodup replicas item.callbacks_ hnd) h)
      · rw [if_neg hrem] at h
        exact processBatchCallbacks_table_lookup replicas item.callbacks_ hnd h

theorem processTxnCallbacks_queueRec (replicas : List String)
    (q : List BatchOfCommitCallbacks) (tbl : AppliedTable)
    (hq : ∀ b ∈ q, b.has_records_ = true) :
    ∀ b ∈ (processTxnCallbacks replicas q tbl).queue, b.has_records_ = true := by
  induction q generalizing tbl with
  | nil => intro b hb; exact absurd hb (by simp [processTxnCallbacks])
  | cons item queue ih =>
    intro b hb
    rw [processTxnCallbacks] at hb
    by_cases hrec : item.has_records_ = false
    · rw [if_pos hrec] at hb
      exact ih tbl (fun x hx => hq x (List.mem_cons_of_mem _ hx)) b hb
    · rw [if_neg hrec] at hb
      by_cases hrem : (processBatchCallbacks replicas item.callbacks_ tbl).rem = []
      · rw [if_pos hrem] at hb
        exact ih _ (fun x hx => hq x (List.mem_cons_of_mem _ hx)) b hb
      · rw [if_neg hrem] at hb
        rcases List.mem_cons.mp hb with rfl | hb
        · simpa using Bool.not_eq_false _ |>.mp hrec
        · exact hq b (List.mem_cons_of_mem _ hb)

theorem processTxnCallbacks_fired_applied (replicas : List String)
    (q : List BatchOfCommitCallbacks) {tbl : AppliedTable}
    (hq : ∀ b ∈ q, b.has_records_ = true) (hnd : KeysNodup tbl) :
    ∀ c ∈ (processTxnCallbacks replicas q tbl).fired,
      ∃ w, lookupTable tbl c.txn_start_time_ = some w ∧ w.length = replicas.length := by
  induction q generalizing tbl with
  | nil => intro c hc; exact absurd hc (by simp [processTxnCallbacks])
  | cons item queue ih =>
    intro c hc
    rw [processTxnCallbacks] at hc
    by_cases hrec : item.has_records_ = false
    · exact absurd (hq item (by simp)) (by simp [hrec])
    · rw [if_neg hrec] at hc
      by_cases hrem : (processBatchCallbacks replicas item.callbacks_ tbl).rem = []
      · rw [if_pos hrem] at hc
        rcases List.mem_append.mp hc with hc | hc
        · exact processBatchCallbacks_fired_applied replicas item.callbacks_ hnd c hc
        · obtain ⟨w, hw, hlen⟩ := ih (fun x hx => hq x (List.mem_cons_of_mem _ hx))
            (processBatchCallbacks_keysNodup replicas item.callbacks_ hnd) c hc
          exact ⟨w, processBatchCallbacks_table_lookup replicas item.callbacks_ hnd hw, hlen⟩
      · rw [if_neg hrem] at hc
        exact processBatchCallbacks_fired_applied replicas item.callbacks_ hnd c hc

theorem processTxnCallbacks_queue_shape (replicas : List String)
    (q : List BatchOfCommitCallbacks) (tbl : AppliedTable) :
    (processTxnCallbacks replicas q tbl).queue = [] ∨
    ∃ c rest2 tail, (processTxnCallbacks replicas q tbl).queue
        = ⟨c :: rest2, true⟩ :: tail ∧
      allReplicasApplied replicas (processTxnCallbacks replicas q tbl).table
        c.txn_start_time_ = false := by
  induction q generalizing tbl with
  | nil => exact Or.inl rfl
  | cons item queue ih =>
    rw [processTxnCallbacks]
    by_cases hrec : item.has_records_ = false
    · rw [if_pos hrec]; exact ih tbl
    · rw [if_neg hrec]
      by_cases hrem : (processBatchCallbacks replicas item.callbacks_ tbl).rem = []
      · rw [if_pos hrem]; exact ih _
      · rw [if_neg hrem]
        rcases processBatchCallbacks_rem_shape replicas item.callbacks_ tbl with h | h
        · exact absurd h hrem
        · obtain ⟨c, rest2, hshape, hfalse⟩ := h
          refine Or.inr ⟨c, rest2, queue, ?_, hfalse⟩
          rw [hshape, Bool.not_eq_false _ |>.mp hrec]

theorem processTxnCallbacks_stable (replicas : List String)
    {q : List BatchOfCommitCallbacks} {tbl : AppliedTable}
    (h : q = [] ∨ ∃ c rest2 tail, q = ⟨c :: rest2, true⟩ :: tail ∧
      allReplicasApplied replicas tbl c.txn_start_time_ = false) :
    processTxnCallbacks replicas q tbl = ⟨q, tbl, []⟩ := by
  rcases h with rfl | ⟨c, rest2, tail, rfl, hfalse⟩
  · rfl
  · rw [processTxnCallbacks]
    have hrec : ¬((true : Bool) = false) := by simp
    rw [if_neg hrec]
    have hscan : processBatchCallbacks replicas (c :: rest2) tbl
        = ⟨c :: rest2, tbl, []⟩ := by
      rw [processBatchCallbacks, if_neg (by simp [hfalse])]
    rw [hscan]
    simp

theorem processTxnCallbacks_erased_key (replicas : List String)
    (q : List BatchOfCommitCallbacks) {tbl : AppliedTable}
    (hnd : KeysNodup tbl) {y : Nat} {w : List String}
    (hsome : lookupTable tbl y = some w)
    (hnone : lookupTable (processTxnCallbacks replicas q tbl).table y = none) :
    ∃ c ∈ (processTxnCallbacks replicas q tbl).fired, c.txn_start_time_ = y := by
  induction q generalizing tbl w with
  | nil =>
    rw [show (processTxnCallbacks replicas [] tbl).table = tbl from rfl, hsome] at hnone
    exact absurd hnone (by simp)
  | cons item queue ih =>
    rw [processTxnCallbacks] at hnone ⊢
    by_cases hrec : item.has_records_ = false
    · rw [if_pos hrec] at hnone ⊢
      obtain ⟨c, hc, hct⟩ := ih hnd hsome hnone
      exact ⟨c, by simpa using Or.inr hc, hct⟩
    · rw [if_neg hrec] at hnone ⊢
      by_cases hrem : (processBatchCallbacks replicas item.callbacks_ tbl).rem = []
      · rw [if_pos hrem] at hnone ⊢
        cases hmid : lookupTable (processBatchCallbacks replicas item.callbacks_ tbl).table y with
        | none =>
          obtain ⟨c, hc, hct⟩ :=
            processBatchCallbacks_erased_key replicas item.callbacks_ hnd hsome hmid
          exact ⟨c, by simpa using Or.inl hc, hct⟩
        | some w2 =>
          obtain ⟨c, hc, hct⟩ :=
            ih (processBatchCallbacks_keysNodup replicas item.callbacks_ hnd) hmid hnone
          exact ⟨c, by simpa using Or.inr hc, hct⟩
      · rw [if_neg hrem] at hnone ⊢
        exact processBatchCallbacks_erased_key replicas item.callbacks_ hnd hsome hnone

theorem pbc_table_mem {replicas : List String} {cbs : List CommitCallback}
    {tbl : AppliedTable} {p : Nat × List String}
    (h : p ∈ (processBatchCallbacks replicas cbs tbl).table) : p ∈ tbl := by
  induction cbs generalizing tbl with
  | nil => exact h
  | cons cb rest ih =>
    by_cases hcond : allReplicasApplied replicas tbl cb.txn_start_time_ = true
    · rw [pbc_fire_table hcond] at h
      exact (eraseTable_sublist tbl cb.txn_start_time_).subset (ih h)
    · rwa [pbc_stop_eq hcond] at h

theorem ptc_table_mem {replicas : List String} {q : List BatchOfCommitCallbacks}
    {tbl : AppliedTable} {p : Nat × List String}
    (h : p ∈ (processTxnCallbacks replicas q tbl).table) : p ∈ tbl := by
  induction q generalizing tbl with
  | nil => exact h
  | cons item queue ih =>
    by_cases hb : item.has_records_ = false
    · rw [ptc_norec_table hb] at h
      exact ih h
    · by_cases hrem : (processBatchCallbacks replicas item.callbacks_ tbl).rem = []
      · rw [ptc_done_table hb hrem] at h
        exact pbc_table_mem (ih h)
      · rw [ptc_stop_table hb hrem] at h
        exact pbc_table_mem h

/-! ## Lemmas about `Handle`'s table update -/

theorem ensureEntry_lookup (tbl : AppliedTable) (t : Nat) :
    lookupTable (ensureEntry tbl t) t = some ((lookupTable tbl t).getD []) := by
  rw [ensureEntry]
  cases h : lookupTable tbl t with
  | none =>
    rw [if_pos (by simp [h]), lookupTable_append_right h]
    rfl
  | some v =>
    rw [if_neg (by simp [h]), h]
    rfl

theorem ensureEntry_lookup_ne {tbl : AppliedTable} {t y : Nat} (h : y ≠ t) :
    lookupTable (ensureEntry tbl t) y = lookupTable tbl y := by
  rw [ensureEntry]
  split
  · exact lookupTable_append_ne h _
  · rfl

theorem ensureEntry_keysNodup {tbl : AppliedTable} (hnd : KeysNodup tbl) (t : Nat) :
    KeysNodup (ensureEntry tbl t) := by
  rw [ensureEntry]
  split
  · next h =>
    rw [KeysNodup, List.map_append]
    refine List.Nodup.append hnd (by simp) ?_
    intro a ha hb
    simp only [List.map_cons, List.map_nil, List.mem_singleton] at hb
    subst hb
    exact (lookupTable_none_iff.mp (Option.isNone_iff_eq_none.mp h)) ha
  · exact hnd

theorem ensureEntry_mem {tbl : AppliedTable} {t : Nat} {p : Nat × List String}
    (h : p ∈ ensureEntry tbl t) : p ∈ tbl ∨ p = (t, []) := by
  rw [ensureEntry] at h
  split at h
  · rcases List.mem_append.mp h with h | h
    · exact Or.inl h
    · exact Or.inr (by simpa using h)
  · exact Or.inl h

theorem appliedAfter_eq (tbl : AppliedTable) (t : Nat) (s : String) :
    appliedAfter tbl t s = insertReplica ((lookupTable tbl t).getD []) s := by
  rw [appliedAfter, ensureEntry_lookup, Option.getD_some]

theorem tableAfter_lookup_self (tbl : AppliedTable) (t : Nat) (s : String) :
    lookupTable (tableAfter tbl t s) t = some (appliedAfter tbl t s) :=
  lookupTable_update_self (ensureEntry_lookup tbl t) _

theorem tableAfter_lookup_ne {tbl : AppliedTable} {t y : Nat} (s : String) (h : y ≠ t) :
    lookupTable (tableAfter tbl t s) y = lookupTable tbl y := by
  rw [tableAfter, lookupTable_update_ne h, ensureEntry_lookup_ne h]

theorem tableAfter_keysNodup {tbl : AppliedTable} (hnd : KeysNodup tbl) (t : Nat) (s : String) :
    KeysNodup (tableAfter tbl t s) :=
  keysNodup_update (ensureEntry_keysNodup hnd t) _ _

theorem tableAfter_mem {tbl : AppliedTable} {t : Nat} {s : String} {p : Nat × List String}
    (h : p ∈ tableAfter tbl t s) :
    p = (t, appliedAfter tbl t s) ∨ p = (t, []) ∨ p ∈ tbl := by
  rcases mem_updateTable h with h | h
  · exact Or.inl h
  · rcases ensureEntry_mem h with h | h
    · exact Or.inr (Or.inr h)
    · exact Or.inr (Or.inl h)

/-! ## Event-list bookkeeping -/

theorem submittedList_append (es1 es2 : List Event) :
    submittedList (es1 ++ es2) = submittedList es1 ++ submittedList es2 := by
  induction es1 with
  | nil => rfl
  | cons e es ih => cases e <;> simp [submittedList, ih]

theorem syncSubmitted_append (es1 es2 : List Event) :
    syncSubmitted (es1 ++ es2) = syncSubmitted es1 ++ syncSubmitted es2 := by
  induction es1 with
  | nil => rfl
  | cons e es ih => cases e <;> simp [syncSubmitted, ih]

theorem syncSubmitted_sublist (es : List Event) :
    List.Sublist (syncSubmitted es) (submittedList es) := by
  induction es with
  | nil => simp [syncSubmitted, submittedList]
  | cons e es ih =>
    cases e with
    | replicate rb cbs pol =>
      rw [submittedList, syncSubmitted]
      split
      · exact List.Sublist.append_left ih _
      · rw [List.nil_append]
        exact ih.trans (List.sublist_append_right _ _)
    | txnApplied s m t =>
      rw [submittedList, syncSubmitted]
      exact ih

theorem flattenQ_append (q1 q2 : List BatchOfCommitCallbacks) :
    flattenQ (q1 ++ q2) = flattenQ q1 ++ flattenQ q2 := by
  simp [flattenQ]

/-! ## The run invariant -/

/-- Every applied set in the table is duplicate-free and contains only
senders that actually sent an applied-notification for that transaction. -/
def TblOK (es : List Event) (tbl : AppliedTable) : Prop :=
  ∀ p ∈ tbl, p.2.Nodup ∧ ∀ x ∈ p.2, ∃ mid, Event.txnApplied x mid p.1 ∈ es

/-- Every invoked callback either came through the immediate path
(`ASYNC` or no records) or had its transaction acknowledged by a full,
duplicate-free set of senders. -/
def InvSrc (replicas : List String) (es : List Event) (invoked : List CommitCallback) : Prop :=
  ∀ c ∈ invoked,
    (∃ rb cbs pol, Event.replicate rb cbs pol ∈ es ∧ c ∈ cbs ∧
      (pol = ReplicationPolicy.ASYNC ∨ rb = none)) ∨
    (∃ v : List String, v.Nodup ∧ v.length = replicas.length ∧
      ∀ x ∈ v, ∃ mid, Event.txnApplied x mid c.txn_start_time_ ∈ es)

/-- Every submitted callback is accounted for exactly once between the
invocation trace and the pending queue. -/
def CountEq (es : List Event) (st : PrimaryState) : Prop :=
  ∀ c, st.invoked.count c + (flattenQ st.txn_callbacks_).count c = (submittedList es).count c

/-- When all submitted callbacks are distinct: the queue holds a suffix of
the `SYNC`-submitted callbacks, and the invocation trace, restricted to
`SYNC`-submitted callbacks, is exactly the complementary prefix (in
order). -/
def OrdInv (es : List Event) (st : PrimaryState) : Prop :=
  (submittedList es).Nodup →
  ∃ dr, syncSubmitted es = dr ++ flattenQ st.txn_callbacks_ ∧
    st.invoked.filter (fun c => decide (c ∈ syncSubmitted es)) = dr

/-- The inductive invariant of a run. -/
def Inv (replicas : List String) (es : List Event) (st : PrimaryState) : Prop :=
  KeysNodup st.txns_applied_on_replicas_ ∧
  TblOK es st.txns_applied_on_replicas_ ∧
  (∀ b ∈ st.txn_callbacks_, b.has_records_ = true) ∧
  InvSrc replicas es st.invoked ∧
  CountEq es st ∧
  OrdInv es st

theorem inv_init (replicas : List String) : Inv replicas [] initState := by
  refine ⟨by simp [KeysNodup, initState], ?_, ?_, ?_, ?_, ?_⟩
  · intro p hp
    exact absurd hp (by simp [initState])
  · intro b hb
    exact absurd hb (by simp [initState])
  · intro c hc
    exact absurd hc (by simp [initState])
  · intro c
    simp [initState, flattenQ, submittedList]
  · intro _
    exact ⟨[], by simp [initState, syncSubmitted, flattenQ], by simp [initState]⟩

/-! ## Step preservation -/

theorem TblOK_mono {es0 : List Event} (e : Event) {tbl : AppliedTable}
    (h : TblOK es0 tbl) : TblOK (es0 ++ [e]) tbl := by
  intro p hp
  obtain ⟨h1, h2⟩ := h p hp
  exact ⟨h1, fun x hx => (h2 x hx).imp fun mid hm => List.mem_append_left _ hm⟩

theorem InvSrc_mono {replicas : List String} {es0 : List Event} (e : Event)
    {invoked : List CommitCallback} (h : InvSrc replicas es0 invoked) :
    InvSrc replicas (es0 ++ [e]) invoked := by
  intro c hc
  rcases h c hc with ⟨rb2, cbs2, pol2, hmem, hin, hp2⟩ | ⟨v, h1, h2, h3⟩
  · exact Or.inl ⟨rb2, cbs2, pol2, List.mem_append_left _ hmem, hin, hp2⟩
  · exact Or.inr ⟨v, h1, h2, fun x hx => (h3 x hx).imp fun mid hm => List.mem_append_left _ hm⟩

theorem flattenQ_singleton (b : BatchOfCommitCallbacks) : flattenQ [b] = b.callbacks_ := by
  simp [flattenQ]

theorem inv_replicate_immediate {replicas : List String} {es0 : List Event}
    {st0 st1 : PrimaryState} {rb : Option Nat} {cbs : List CommitCallback}
    {pol : ReplicationPolicy}
    (hinv : Inv replicas es0 st0)
    (hpath : pol = ReplicationPolicy.ASYNC ∨ rb = none)
    (hq : st1.txn_callbacks_ = st0.txn_callbacks_)
    (htbl : st1.txns_applied_on_replicas_ = st0.txns_applied_on_replicas_)
    (hinvk : st1.invoked = st0.invoked ++ cbs) :
    Inv replicas (es0 ++ [Event.replicate rb cbs pol]) st1 := by
  obtain ⟨hkeys, htblok, hqrec, hsrc, hcount, hord⟩ := hinv
  have hsync : syncSubmitted (es0 ++ [Event.replicate rb cbs pol]) = syncSubmitted es0 := by
    rw [syncSubmitted_append]
    have h1 : syncSubmitted [Event.replicate rb cbs pol] = [] := by
      rcases hpath with h | h <;> subst h <;> simp [syncSubmitted]
    rw [h1, List.append_nil]
  have hsub : submittedList (es0 ++ [Event.replicate rb cbs pol])
      = submittedList es0 ++ cbs := by
    rw [submittedList_append]
    simp [submittedList]
  refine ⟨htbl ▸ hkeys, ?_, ?_, ?_, ?_, ?_⟩
  · rw [htbl]
    exact TblOK_mono _ htblok
  · rw [hq]
    exact hqrec
  · rw [hinvk]
    intro c hc
    rcases List.mem_append.mp hc with hc | hc
    · exact InvSrc_mono _ hsrc c hc
    · exact Or.inl ⟨rb, cbs, pol, List.mem_append_right _ (by simp), hc, hpath⟩
  · intro c
    rw [hinvk, hq, hsub, List.count_append, List.count_append]
    have := hcount c
    omega
  · intro hnodup
    rw [hsub] at hnodup
    have hnodup0 : (submittedList es0).Nodup :=
      hnodup.sublist (List.sublist_append_left _ _)
    obtain ⟨dr, hdr1, hdr2⟩ := hord hnodup0
    refine ⟨dr, ?_, ?_⟩
    · rw [hsync, hq]
      exact hdr1
    · simp only [hsync, hinvk]
      rw [List.filter_append, hdr2]
      have hdisj := List.disjoint_of_nodup_append hnodup
      have hnil : cbs.filter (fun c => decide (c ∈ syncSubmitted es0)) = [] := by
        rw [List.filter_eq_nil_iff]
        intro a ha
        simp only [decide_eq_true_eq]
        intro hmem
        exact hdisj ((syncSubmitted_sublist es0).subset hmem) ha
      rw [hnil, List.append_nil]

theorem inv_replicate_enqueue {replicas : List String} {es0 : List Event}
    {st0 st1 : PrimaryState} {rb : Option Nat} {cbs : List CommitCallback}
    (hinv : Inv replicas es0 st0)
    (hrb : rb ≠ none)
    (hq : st1.txn_callbacks_ = st0.txn_callbacks_ ++ [⟨cbs, true⟩])
    (htbl : st1.txns_applied_on_replicas_ = st0.txns_applied_on_replicas_)
    (hinvk : st1.invoked = st0.invoked) :
    Inv replicas (es0 ++ [Event.replicate rb cbs ReplicationPolicy.SYNC]) st1 := by
  obtain ⟨hkeys, htblok, hqrec, hsrc, hcount, hord⟩ := hinv
  have hsync : syncSubmitted (es0 ++ [Event.replicate rb cbs ReplicationPolicy.SYNC])
      = syncSubmitted es0 ++ cbs := by
    rw [syncSubmitted_append]
    simp [syncSubmitted, hrb]
  have hsub : submittedList (es0 ++ [Event.replicate rb cbs ReplicationPolicy.SYNC])
      = submittedList es0 ++ cbs := by
    rw [submittedList_append]
    simp [submittedList]
  refine ⟨htbl ▸ hkeys, ?_, ?_, ?_, ?_, ?_⟩
  · rw [htbl]
    exact TblOK_mono _ htblok
  · rw [hq]
    intro b hb
    rcases List.mem_append.mp hb with hb | hb
    · exact hqrec b hb
    · rw [List.mem_singleton] at hb
      rw [hb]
  · rw [hinvk]
    exact InvSrc_mono _ hsrc
  · intro c
    rw [hinvk, hq, hsub, flattenQ_append, flattenQ_singleton, List.count_append,
      List.count_append]
    rw [show ({ callbacks_ := cbs, has_records_ := true } :
      BatchOfCommitCallbacks).callbacks_ = cbs from rfl]
    have := hcount c
    omega
  · intro hnodup
    rw [hsub] at hnodup
    have hnodup0 : (submittedList es0).Nodup :=
      hnodup.sublist (List.sublist_append_left _ _)
    obtain ⟨dr, hdr1, hdr2⟩ := hord hnodup0
    have hdisj := List.disjoint_of_nodup_append hnodup
    refine ⟨dr, ?_, ?_⟩
    · rw [hsync, hq, flattenQ_append, flattenQ_singleton, hdr1, List.append_assoc]
    · simp only [hsync, hinvk]
      have hcong : ∀ c ∈ st0.invoked,
          (decide (c ∈ syncSubmitted es0 ++ cbs)) = (decide (c ∈ syncSubmitted es0)) := by
        intro c hc
        have hc1 : c ∈ submittedList es0 := by
          have hpos : 0 < st0.invoked.count c := List.count_pos_iff.mpr hc
          have := hcount c
          have hpos2 : 0 < (submittedList es0).count c := by omega
          exact List.count_pos_iff.mp hpos2
        have hnotcbs : c ∉ cbs := fun hmem => hdisj hc1 hmem
        rw [decide_eq_decide]
        constructor
        · intro hmem
          rcases List.mem_append.mp hmem with hmem | hmem
          · exact hmem
          · exact absurd hmem hnotcbs
        · intro hmem
          exact List.mem_append_left _ hmem
      rw [List.filter_congr hcong, hdr2]

theorem inv_handle {replicas : List String} {es0 : List Event} {st0 : PrimaryState}
    (s : String) (m t : Nat) (hinv : Inv replicas es0 st0) :
    Inv replicas (es0 ++ [Event.txnApplied s m t]) (handleTxnApplied replicas st0 s m t) := by
  obtain ⟨hkeys, htblok, hqrec, hsrc, hcount, hord⟩ := hinv
  have hkeys1 : KeysNodup (tableAfter st0.txns_applied_on_replicas_ t s) :=
    tableAfter_keysNodup hkeys t s
  have htblok1 : TblOK (es0 ++ [Event.txnApplied s m t])
      (tableAfter st0.txns_applied_on_replicas_ t s) := by
    intro p hp
    rcases tableAfter_mem hp with hp | hp | hp
    · subst hp
      have hv : ((lookupTable st0.txns_applied_on_replicas_ t).getD []).Nodup ∧
          ∀ x ∈ (lookupTable st0.txns_applied_on_replicas_ t).getD [],
            ∃ mid, Event.txnApplied x mid t ∈ es0 := by
        cases hl : lookupTable st0.txns_applied_on_replicas_ t with
        | none => simp
        | some v =>
          have := htblok (t, v) (lookupTable_mem hl)
          simpa using this
      constructor
      · show (appliedAfter st0.txns_applied_on_replicas_ t s).Nodup
        rw [appliedAfter_eq]
        exact insertReplica_nodup hv.1 s
      · intro x hx
        show ∃ mid, Event.txnApplied x mid t ∈ es0 ++ [Event.txnApplied s m t]
        rw [show ((t, appliedAfter st0.txns_applied_on_replicas_ t s) :
            Nat × List String).2 = appliedAfter st0.txns_applied_on_replicas_ t s from rfl,
          appliedAfter_eq] at hx
        rcases mem_insertReplica hx with hx | hx
        · obtain ⟨mid, hmid⟩ := hv.2 x hx
          exact ⟨mid, List.mem_append_left _ hmid⟩
        · subst hx
          exact ⟨m, List.mem_append_right _ (by simp)⟩
    · subst hp
      exact ⟨by simp, by simp⟩
    · obtain ⟨h1, h2⟩ := htblok p hp
      exact ⟨h1, fun x hx => (h2 x hx).imp fun mid hm => List.mem_append_left _ hm⟩
  have hsub : submittedList (es0 ++ [Event.txnApplied s m t]) = submittedList es0 := by
    rw [submittedList_append]
    simp [submittedList]
  have hsync : syncSubmitted (es0 ++ [Event.txnApplied s m t]) = syncSubmitted es0 := by
    rw [syncSubmitted_append]
    simp [syncSubmitted]
  rw [handleTxnApplied]
  split
  · -- the applied set is complete: a drain pass runs
    refine ⟨?_, ?_, ?_, ?_, ?_, ?_⟩
    · show KeysNodup (processTxnCallbacks replicas st0.txn_callbacks_
        (tableAfter st0.txns_applied_on_replicas_ t s)).table
      exact processTxnCallbacks_keysNodup _ _ hkeys1
    · show TblOK _ (processTxnCallbacks replicas st0.txn_callbacks_
        (tableAfter st0.txns_applied_on_replicas_ t s)).table
      intro p hp
      exact htblok1 p (ptc_table_mem hp)
    · show ∀ b ∈ (processTxnCallbacks replicas st0.txn_callbacks_
        (tableAfter st0.txns_applied_on_replicas_ t s)).queue, b.has_records_ = true
      exact processTxnCallbacks_queueRec _ _ _ hqrec
    · show InvSrc replicas _ (st0.invoked ++ (processTxnCallbacks replicas st0.txn_callbacks_
        (tableAfter st0.txns_applied_on_replicas_ t s)).fired)
      intro c hc
      rcases List.mem_append.mp hc with hc | hc
      · exact InvSrc_mono _ hsrc c hc
      · obtain ⟨w, hw, hlen⟩ :=
          processTxnCallbacks_fired_applied replicas st0.txn_callbacks_ hqrec hkeys1 c hc
        obtain ⟨hwnd, hwsent⟩ := htblok1 (c.txn_start_time_, w) (lookupTable_mem hw)
        exact Or.inr ⟨w, hwnd, hlen, hwsent⟩
    · intro c
      show (st0.invoked ++ (processTxnCallbacks replicas st0.txn_callbacks_
          (tableAfter st0.txns_applied_on_replicas_ t s)).fired).count c
        + (flattenQ (processTxnCallbacks replicas st0.txn_callbacks_
            (tableAfter st0.txns_applied_on_replicas_ t s)).queue).count c
        = (submittedList (es0 ++ [Event.txnApplied s m t])).count c
      have hcons := congrArg (List.count c)
        (processTxnCallbacks_conserves replicas st0.txn_callbacks_
          (tableAfter st0.txns_applied_on_replicas_ t s))
      rw [List.count_append] at hcons
      rw [hsub, List.count_append]
      have := hcount c
      omega
    · intro hnodup
      rw [hsub] at hnodup
      obtain ⟨dr, hdr1, hdr2⟩ := hord hnodup
      refine ⟨dr ++ (processTxnCallbacks replicas st0.txn_callbacks_
        (tableAfter st0.txns_applied_on_replicas_ t s)).fired, ?_, ?_⟩
      · show syncSubmitted (es0 ++ [Event.txnApplied s m t]) = _ ++ flattenQ
          (processTxnCallbacks replicas st0.txn_callbacks_
            (tableAfter st0.txns_applied_on_replicas_ t s)).queue
        rw [hsync, hdr1,
          processTxnCallbacks_conserves replicas st0.txn_callbacks_
            (tableAfter st0.txns_applied_on_replicas_ t s),
          List.append_assoc]
      · show (st0.invoked ++ (processTxnCallbacks replicas st0.txn_callbacks_
            (tableAfter st0.txns_applied_on_replicas_ t s)).fired).filter _ = _
        simp only [hsync]
        rw [List.filter_append, hdr2]
        have hfself : ((processTxnCallbacks replicas st0.txn_callbacks_
            (tableAfter st0.txns_applied_on_replicas_ t s)).fired).filter
              (fun c => decide (c ∈ syncSubmitted es0))
            = (processTxnCallbacks replicas st0.txn_callbacks_
                (tableAfter st0.txns_applied_on_replicas_ t s)).fired := by
          rw [List.filter_eq_self]
          intro c hc
          have hcq : c ∈ flattenQ st0.txn_callbacks_ := by
            rw [processTxnCallbacks_conserves replicas st0.txn_callbacks_
              (tableAfter st0.txns_applied_on_replicas_ t s)]
            exact List.mem_append_left _ hc
          have : c ∈ syncSubmitted es0 := by
            rw [hdr1]
            exact List.mem_append_right _ hcq
          simpa using this
        rw [hfself]
  · -- the applied set is not complete: only the table changes
    refine ⟨hkeys1, htblok1, hqrec, InvSrc_mono _ hsrc, ?_, ?_⟩
    · intro c
      rw [hsub]
      exact hcount c
    · intro hnodup
      rw [hsub] at hnodup
      obtain ⟨dr, hdr1, hdr2⟩ := hord hnodup
      refine ⟨dr, ?_, ?_⟩
      · rw [hsync]
        exact hdr1
      · simp only [hsync]
        exact hdr2

theorem replicate_immediate_fields {replicas : List String} {st : PrimaryState}
    {rb : Option Nat} {cbs : List CommitCallback} {pol : ReplicationPolicy}
    {st1 : PrimaryState}
    (hpath : pol = ReplicationPolicy.ASYNC ∨ rb = none)
    (hpol : pol ≠ ReplicationPolicy.DISABLE)
    (hstep : replicateBatchOfRecords replicas st rb cbs pol = some st1) :
    st1.txn_callbacks_ = st.txn_callbacks_ ∧
    st1.txns_applied_on_replicas_ = st.txns_applied_on_replicas_ ∧
    st1.invoked = st.invoked ++ cbs := by
  cases pol with
  | DISABLE => exact absurd rfl hpol
  | ASYNC =>
    cases rb with
    | none =>
      obtain rfl := (Option.some.inj hstep).symm
      exact ⟨rfl, rfl, rfl⟩
    | some n =>
      obtain rfl := (Option.some.inj hstep).symm
      exact ⟨rfl, rfl, rfl⟩
  | SYNC =>
    rcases hpath with h | h
    · exact absurd h (by decide)
    · subst h
      obtain rfl := (Option.some.inj hstep).symm
      exact ⟨rfl, rfl, rfl⟩

theorem replicate_enqueue_fields {replicas : List String} {st : PrimaryState}
    {n : Nat} {cbs : List CommitCallback} {st1 : PrimaryState}
    (hstep : replicateBatchOfRecords replicas st (some n) cbs ReplicationPolicy.SYNC
      = some st1) :
    st1.txn_callbacks_ = st.txn_callbacks_ ++ [⟨cbs, true⟩] ∧
    st1.txns_applied_on_replicas_ = st.txns_applied_on_replicas_ ∧
    st1.invoked = st.invoked := by
  obtain rfl := (Option.some.inj hstep).symm
  exact ⟨rfl, rfl, rfl⟩

theorem step_inv {replicas : List String} {es0 : List Event} {st0 st1 : PrimaryState}
    {e : Event} (hinv : Inv replicas es0 st0) (hstep : step replicas st0 e = some st1) :
    Inv replicas (es0 ++ [e]) st1 := by
  cases e with
  | txnApplied s m t =>
    rw [step] at hstep
    obtain rfl := (Option.some.inj hstep).symm
    exact inv_handle s m t hinv
  | replicate rb cbs pol =>
    rw [step] at hstep
    cases pol with
    | DISABLE => exact absurd hstep (by simp [replicateBatchOfRecords])
    | ASYNC =>
      obtain ⟨h1, h2, h3⟩ := replicate_immediate_fields (Or.inl rfl) (by decide) hstep
      exact inv_replicate_immediate hinv (Or.inl rfl) h1 h2 h3
    | SYNC =>
      cases rb with
      | none =>
        obtain ⟨h1, h2, h3⟩ := replicate_immediate_fields (Or.inr rfl) (by decide) hstep
        exact inv_replicate_immediate hinv (Or.inr rfl) h1 h2 h3
      | some n =>
        obtain ⟨h1, h2, h3⟩ := replicate_enqueue_fields hstep
        exact inv_replicate_enqueue hinv (by simp) h1 h2 h3

theorem run_inv {replicas : List String} :
    ∀ (es es0 : List Event) (st0 st : PrimaryState),
      Inv replicas es0 st0 → run replicas st0 es = some st →
      Inv replicas (es0 ++ es) st := by
  intro es
  induction es with
  | nil =>
    intro es0 st0 st hinv hrun
    rw [run] at hrun
    obtain rfl := Option.some.inj hrun
    simpa using hinv
  | cons e es ih =>
    intro es0 st0 st hinv hrun
    rw [run] at hrun
    cases hstep : step replicas st0 e with
    | none => rw [hstep] at hrun; exact absurd hrun (by simp)
    | some st2 =>
      rw [hstep] at hrun
      have h1 := step_inv hinv hstep
      have h2 := ih (es0 ++ [e]) st2 st h1 hrun
      simpa [List.append_assoc] using h2

/-- Every state reached by running a list of events from the initial state
satisfies the invariant. -/
theorem run_inv_init {replicas : List String} {es : List Event} {st : PrimaryState}
    (hrun : run replicas initState es = some st) : Inv replicas es st := by
  have h := run_inv es [] initState st (inv_init replicas) hrun
  simpa using h

/-! ## Helper lemmas for the claims -/

theorem updateTable_append_of_none {tbl : AppliedTable} {t : Nat}
    (hl : lookupTable tbl t = none) (w v : List String) :
    updateTable (tbl ++ [(t, w)]) t v = tbl ++ [(t, v)] := by
  induction tbl with
  | nil => simp [updateTable]
  | cons p rest ih =>
    obtain ⟨k0, v0⟩ := p
    rw [lookupTable] at hl
    by_cases hk : k0 = t
    · rw [if_pos hk] at hl
      exact absurd hl (by simp)
    · rw [if_neg hk] at hl
      rw [List.cons_append, updateTable, if_neg hk, ih hl, List.cons_append]

theorem ensureEntry_of_some {tbl : AppliedTable} {t : Nat} {w : List String}
    (hl : lookupTable tbl t = some w) : ensureEntry tbl t = tbl := by
  rw [ensureEntry, if_neg (by simp [hl])]

theorem appliedAfter_lookup_some {tbl : AppliedTable} {t : Nat} {s : String} {w : List String}
    (hl : lookupTable tbl t = some w) (hs : s ∈ w) : appliedAfter tbl t s = w := by
  rw [appliedAfter_eq, hl, Option.getD_some, insertReplica_of_mem hs]

theorem tableAfter_lookup_some {tbl : AppliedTable} {t : Nat} {s : String} {w : List String}
    (hl : lookupTable tbl t = some w) (hs : s ∈ w) : tableAfter tbl t s = tbl := by
  rw [tableAfter, ensureEntry_of_some hl, appliedAfter_lookup_some hl hs, updateTable_same hl]

theorem appliedAfter_none {tbl : AppliedTable} {t : Nat} (s : String)
    (hl : lookupTable tbl t = none) : appliedAfter tbl t s = [s] := by
  rw [appliedAfter_eq, hl]
  simp [insertReplica]

theorem tableAfter_none {tbl : AppliedTable} {t : Nat} (s : String)
    (hl : lookupTable tbl t = none) : tableAfter tbl t s = tbl ++ [(t, [s])] := by
  rw [tableAfter, ensureEntry, if_pos (by simp [hl]), appliedAfter_none s hl]
  exact updateTable_append_of_none hl [] [s]

theorem allReplicasApplied_append_ne {replicas : List String} {tbl : AppliedTable}
    {t y : Nat} (v : List String) (h : y ≠ t) :
    allReplicasApplied replicas (tbl ++ [(t, v)]) y = allReplicasApplied replicas tbl y := by
  rw [allReplicasApplied, allReplicasApplied, lookupTable_append_ne h]

/-- A drain pass is idempotent: re-running it on its own output queue and
table invokes nothing and changes nothing. -/
theorem processTxnCallbacks_idem (replicas : List String)
    (q : List BatchOfCommitCallbacks) (tbl : AppliedTable) :
    processTxnCallbacks replicas
        (processTxnCallbacks replicas q tbl).queue
        (processTxnCallbacks replicas q tbl).table
      = ⟨(processTxnCallbacks replicas q tbl).queue,
         (processTxnCallbacks replicas q tbl).table, []⟩ :=
  processTxnCallbacks_stable replicas (processTxnCallbacks_queue_shape replicas q tbl)

theorem handle_fields_drain {replicas : List String} {st : PrimaryState}
    {s : String} {m t : Nat}
    (hlen : (appliedAfter st.txns_applied_on_replicas_ t s).length = replicas.length) :
    (handleTxnApplied replicas st s m t).txn_callbacks_
      = (processTxnCallbacks replicas st.txn_callbacks_
          (tableAfter st.txns_applied_on_replicas_ t s)).queue ∧
    (handleTxnApplied replicas st s m t).txns_applied_on_replicas_
      = (processTxnCallbacks replicas st.txn_callbacks_
          (tableAfter st.txns_applied_on_replicas_ t s)).table ∧
    (handleTxnApplied replicas st s m t).invoked
      = st.invoked ++ (processTxnCallbacks replicas st.txn_callbacks_
          (tableAfter st.txns_applied_on_replicas_ t s)).fired ∧
    (handleTxnApplied replicas st s m t).acks = st.acks ++ [(s, m)] := by
  rw [handleTxnApplied, if_pos hlen]
  exact ⟨rfl, rfl, rfl, rfl⟩

theorem handle_fields_nodrain {replicas : List String} {st : PrimaryState}
    {s : String} {m t : Nat}
    (hlen : ¬(appliedAfter st.txns_applied_on_replicas_ t s).length = replicas.length) :
    (handleTxnApplied replicas st s m t).txn_callbacks_ = st.txn_callbacks_ ∧
    (handleTxnApplied replicas st s m t).txns_applied_on_replicas_
      = tableAfter st.txns_applied_on_replicas_ t s ∧
    (handleTxnApplied replicas st s m t).invoked = st.invoked ∧
    (handleTxnApplied replicas st s m t).acks = st.acks ++ [(s, m)] := by
  rw [handleTxnApplied, if_neg hlen]
  exact ⟨rfl, rfl, rfl, rfl⟩

theorem append_cons_inj {α : Type} {X Y X2 Y2 : List α} {b : α}
    (h : X ++ b :: Y = X2 ++ b :: Y2) (hX : b ∉ X) (hX2 : b ∉ X2) : X = X2 ∧ Y = Y2 := by
  induction X generalizing X2 with
  | nil =>
    cases X2 with
    | nil => simpa using h
    | cons x X2' =>
      simp only [List.nil_append, List.cons_append, List.cons.injEq] at h
      exact absurd (h.1 ▸ List.mem_cons_self x X2') hX2
  | cons x X' ih =>
    cases X2 with
    | nil =>
      simp only [List.cons_append, List.nil_append, List.cons.injEq] at h
      exact absurd (h.1.symm ▸ List.mem_cons_self x X') hX
    | cons x2 X2' =>
      simp only [List.cons_append, List.cons.injEq] at h
      obtain ⟨rfl, h2⟩ := h
      obtain ⟨hXX, hYY⟩ := ih h2 (fun hm => hX (List.mem_cons_of_mem _ hm))
        (fun hm => hX2 (List.mem_cons_of_mem _ hm))
      exact ⟨by rw [hXX], hYY⟩

theorem nodup_not_mem_parts {α : Type} {X Y : List α} {b : α}
    (hnd : (X ++ b :: Y).Nodup) : b ∉ X ∧ b ∉ Y := by
  rw [List.nodup_append] at hnd
  obtain ⟨_, hby, hdisj⟩ := hnd
  constructor
  · intro hb
    exact hdisj hb (List.mem_cons_self b Y)
  · intro hb
    exact (List.nodup_cons.mp hby).1 hb

/-- The drain structure: one pass pops a (possibly empty) prefix of
batches, each with all its callbacks invoked; at most the first surviving
batch is partially invoked, and its invoked part is a prefix of its
callback list; batches behind it are untouched. -/
theorem processTxnCallbacks_drain_structure (replicas : List String)
    (q : List BatchOfCommitCallbacks) (tbl : AppliedTable)
    (hqrec : ∀ b ∈ q, b.has_records_ = true) :
    ((processTxnCallbacks replicas q tbl).queue = [] ∧
      (processTxnCallbacks replicas q tbl).fired = flattenQ q) ∨
    (∃ popped bb rest pre rem,
      q = popped ++ bb :: rest ∧ bb.callbacks_ = pre ++ rem ∧ rem ≠ [] ∧
      (processTxnCallbacks replicas q tbl).queue = ⟨rem, true⟩ :: rest ∧
      (processTxnCallbacks replicas q tbl).fired = flattenQ popped ++ pre) := by
  induction q generalizing tbl with
  | nil => exact Or.inl ⟨rfl, rfl⟩
  | cons item queue ih =>
    have hb : ¬item.has_records_ = false := by simp [hqrec item (by simp)]
    by_cases hrem : (processBatchCallbacks replicas item.callbacks_ tbl).rem = []
    · have hfull : item.callbacks_ = (processBatchCallbacks replicas item.callbacks_ tbl).fired := by
        have hc := processBatchCallbacks_conserves replicas item.callbacks_ tbl
        rwa [hrem, List.append_nil] at hc
      rcases ih (processBatchCallbacks replicas item.callbacks_ tbl).table
          (fun b hb2 => hqrec b (List.mem_cons_of_mem _ hb2)) with
        ⟨h1, h2⟩ | ⟨popped, bb, rest, pre, rem, he, hcb, hne, hq2, hf2⟩
      · refine Or.inl ⟨?_, ?_⟩
        · rw [ptc_done_queue hb hrem]
          exact h1
        · rw [ptc_done_fired hb hrem, h2, flattenQ_cons, ← hfull]
      · refine Or.inr ⟨item :: popped, bb, rest, pre, rem, by rw [he, List.cons_append],
          hcb, hne, ?_, ?_⟩
        · rw [ptc_done_queue hb hrem]
          exact hq2
        · rw [ptc_done_fired hb hrem, hf2, flattenQ_cons, ← hfull, List.append_assoc]
    · refine Or.inr ⟨[], item, queue,
        (processBatchCallbacks replicas item.callbacks_ tbl).fired,
        (processBatchCallbacks replicas item.callbacks_ tbl).rem,
        rfl, processBatchCallbacks_conserves replicas item.callbacks_ tbl, hrem, ?_, ?_⟩
      · rw [ptc_stop_queue hb hrem,
          show item.has_records_ = true by revert hb; cases item.has_records_ <;> simp]
      · rw [ptc_stop_fired hb hrem, flattenQ_nil, List.nil_append]

theorem ptcChecked_eq_of_queueRec (replicas : List String)
    (q : List BatchOfCommitCallbacks) (tbl : AppliedTable)
    (hq : ∀ b ∈ q, b.has_records_ = true) :
    processTxnCallbacksChecked replicas q tbl
      = some (processTxnCallbacks replicas q tbl) := by
  induction q generalizing tbl with
  | nil => rfl
  | cons item queue ih =>
    have hb : ¬item.has_records_ = false := by simp [hq item (by simp)]
    rw [processTxnCallbacksChecked, if_neg hb]
    by_cases hrem : (processBatchCallbacks replicas item.callbacks_ tbl).rem = []
    · rw [if_pos hrem, ih _ (fun b hb2 => hq b (List.mem_cons_of_mem _ hb2))]
      rw [processTxnCallbacks, if_neg hb, if_pos hrem]
    · rw [if_neg hrem]
      rw [processTxnCallbacks, if_neg hb, if_neg hrem]

/-! ## The claims -/

/-- C9: every batch of commit callbacks that is ever enqueued in the
ledger queue has `has_records_ = true` (only the `SYNC`-with-records path
of `ReplicateBatchOfRecords` enqueues), so in every reachable state the
no-records branch of `ProcessTxnCallbacks` — the one that invokes a head
batch's callbacks unconditionally — is unreachable: the checked variant
of the drain, which aborts on that branch, agrees with the real drain on
the reachable queue for every table. -/
theorem enqueued_batches_always_have_records {replicas : List String} {es : List Event}
    {st : PrimaryState} (hrun : run replicas initState es = some st) :
    (∀ b ∈ st.txn_callbacks_, b.has_records_ = true) ∧
    ∀ tbl, processTxnCallbacksChecked replicas st.txn_callbacks_ tbl
      = some (processTxnCallbacks replicas st.txn_callbacks_ tbl) := by
  obtain ⟨_, _, hqrec, _, _, _⟩ := run_inv_init hrun
  exact ⟨hqrec, fun tbl => ptcChecked_eq_of_queueRec replicas _ tbl hqrec⟩

/-- Witness for `enqueued_batches_always_have_records`: a one-event run
that enqueues one `SYNC` batch. -/
theorem enqueued_batches_always_have_records_witness :
    run ["A"] initState
        [Event.replicate (some 0) [⟨5, 0⟩] ReplicationPolicy.SYNC]
      = some
        { txn_callbacks_ := [⟨[⟨5, 0⟩], true⟩]
          txns_applied_on_replicas_ := []
          next_batch_id_ := 2
          next_message_id_ := 1
          invoked := []
          sent := [("A", 0, 1)]
          acks := [] } ∧
    ((∀ b ∈ ({ txn_callbacks_ := [⟨[⟨5, 0⟩], true⟩]
               txns_applied_on_replicas_ := []
               next_batch_id_ := 2
               next_message_id_ := 1
               invoked := []
               sent := [("A", 0, 1)]
               acks := [] } : PrimaryState).txn_callbacks_, b.has_records_ = true) ∧
      ∀ tbl, processTxnCallbacksChecked ["A"]
          ({ txn_callbacks_ := [⟨[⟨5, 0⟩], true⟩]
             txns_applied_on_replicas_ := []
             next_batch_id_ := 2
             next_message_id_ := 1
             invoked := []
             sent := [("A", 0, 1)]
             acks := [] } : PrimaryState).txn_callbacks_ tbl
        = some (processTxnCallbacks ["A"]
            ({ txn_callbacks_ := [⟨[⟨5, 0⟩], true⟩]
               txns_applied_on_replicas_ := []
               next_batch_id_ := 2
               next_message_id_ := 1
               invoked := []
               sent := [("A", 0, 1)]
               acks := [] } : PrimaryState).txn_callbacks_ tbl)) :=
  ⟨by decide,
    enqueued_batches_always_have_records
      (show run ["A"] initState
          [Event.replicate (some 0) [⟨5, 0⟩] ReplicationPolicy.SYNC]
        = some
          { txn_callbacks_ := [⟨[⟨5, 0⟩], true⟩]
            txns_applied_on_replicas_ := []
            next_batch_id_ := 2
            next_message_id_ := 1
            invoked := []
            sent := [("A", 0, 1)]
            acks := [] } by decide)⟩

/-- C10: handling an applied-notification whose insertion does not bring
the transaction's applied-set size up to the configured replica count
leaves the callback queue unchanged, invokes no commit callback, leaves
the identifier counters and the send trace unchanged, sends the receipt
acknowledgement, and alters the applied-tracking table only at the
notified transaction — where the sender is added to the applied set. -/
theorem handle_incomplete_set_frame (replicas : List String) (st : PrimaryState)
    (s : String) (m t : Nat)
    (h : (appliedAfter st.txns_applied_on_replicas_ t s).length ≠ replicas.length) :
    (handleTxnApplied replicas st s m t).txn_callbacks_ = st.txn_callbacks_ ∧
    (handleTxnApplied replicas st s m t).invoked = st.invoked ∧
    (handleTxnApplied replicas st s m t).acks = st.acks ++ [(s, m)] ∧
    (handleTxnApplied replicas st s m t).sent = st.sent ∧
    (handleTxnApplied replicas st s m t).next_batch_id_ = st.next_batch_id_ ∧
    (handleTxnApplied replicas st s m t).next_message_id_ = st.next_message_id_ ∧
    lookupTable (handleTxnApplied replicas st s m t).txns_applied_on_replicas_ t
      = some (insertReplica ((lookupTable st.txns_applied_on_replicas_ t).getD []) s) ∧
    ∀ y, y ≠ t →
      lookupTable (handleTxnApplied replicas st s m t).txns_applied_on_replicas_ y
        = lookupTable st.txns_applied_on_replicas_ y := by
  rw [handleTxnApplied, if_neg h]
  refine ⟨rfl, rfl, rfl, rfl, rfl, rfl, ?_, ?_⟩
  · rw [show ({ st with
        acks := st.acks ++ [(s, m)]
        txns_applied_on_replicas_ :=
          tableAfter st.txns_applied_on_replicas_ t s } : PrimaryState).txns_applied_on_replicas_
      = tableAfter st.txns_applied_on_replicas_ t s from rfl]
    rw [tableAfter_lookup_self, appliedAfter_eq]
  · intro y hy
    exact tableAfter_lookup_ne s hy

/-- Witness for `handle_incomplete_set_frame`: two replicas, one
notification. -/
theorem handle_incomplete_set_frame_witness :
    (appliedAfter initState.txns_applied_on_replicas_ 5 "A").length
      ≠ (["A", "B"] : List String).length ∧
    ((handleTxnApplied ["A", "B"] initState "A" 1 5).txn_callbacks_
        = initState.txn_callbacks_ ∧
      (handleTxnApplied ["A", "B"] initState "A" 1 5).invoked = initState.invoked ∧
      (handleTxnApplied ["A", "B"] initState "A" 1 5).acks
        = initState.acks ++ [("A", 1)] ∧
      (handleTxnApplied ["A", "B"] initState "A" 1 5).sent = initState.sent ∧
      (handleTxnApplied ["A", "B"] initState "A" 1 5).next_batch_id_
        = initState.next_batch_id_ ∧
      (handleTxnApplied ["A", "B"] initState "A" 1 5).next_message_id_
        = initState.next_message_id_ ∧
      lookupTable (handleTxnApplied ["A", "B"] initState "A" 1 5).txns_applied_on_replicas_ 5
        = some (insertReplica
            ((lookupTable initState.txns_applied_on_replicas_ 5).getD []) "A") ∧
      ∀ y, y ≠ 5 →
        lookupTable (handleTxnApplied ["A", "B"] initState "A" 1 5).txns_applied_on_replicas_ y
          = lookupTable initState.txns_applied_on_replicas_ y) :=
  ⟨by decide, handle_incomplete_set_frame ["A", "B"] initState "A" 1 5 (by decide)⟩

/-- C7 (counterexample): the claim extends the bound to notifications
whose sender is not a configured replica, but `Handle` records any
sender's routing id.  With one configured replica `"A"`, two
notifications for transaction 7 from rogue senders `"X"` and `"Y"` leave
an applied set of size 2 > 1 in a reachable state. -/
theorem applied_set_exceeds_replica_count_with_rogue_senders :
    ((run ["A"] initState
        [Event.txnApplied "X" 0 7, Event.txnApplied "Y" 1 7]).map
      (fun st => ((lookupTable st.txns_applied_on_replicas_ 7).getD []).length))
      = some 2 ∧ (["A"] : List String).length = 1 ∧ 1 < 2 := by
  refine ⟨by decide, rfl, by decide⟩

/-- C7 (amended): for every reachable state of a run in which every
handled applied-notification's sender is a configured replica, the
applied set recorded for any transaction has size at most the number of
configured replicas. -/
theorem applied_set_bounded_by_replica_count {replicas : List String} {es : List Event}
    {st : PrimaryState}
    (hrun : run replicas initState es = some st)
    (hsenders : ∀ s mid t, Event.txnApplied s mid t ∈ es → s ∈ replicas) :
    ∀ p ∈ st.txns_applied_on_replicas_, p.2.length ≤ replicas.length := by
  obtain ⟨_, htblok, _, _, _, _⟩ := run_inv_init hrun
  intro p hp
  obtain ⟨hnd, hsent⟩ := htblok p hp
  have hsubset : p.2 ⊆ replicas := by
    intro x hx
    obtain ⟨mid, hmid⟩ := hsent x hx
    exact hsenders x mid p.1 hmid
  exact (hnd.subperm hsubset).length_le

/-- Witness for `applied_set_bounded_by_replica_count`: one replica
acknowledging one transaction. -/
theorem applied_set_bounded_by_replica_count_witness :
    run ["A"] initState [Event.txnApplied "A" 0 7]
        = some (handleTxnApplied ["A"] initState "A" 0 7) ∧
    ∀ p ∈ (handleTxnApplied ["A"] initState "A" 0 7).txns_applied_on_replicas_,
      p.2.length ≤ (["A"] : List String).length :=
  ⟨by decide,
    applied_set_bounded_by_replica_count
      (show run ["A"] initState [Event.txnApplied "A" 0 7]
        = some (handleTxnApplied ["A"] initState "A" 0 7) by decide)
      (by
        intro s mid t h
        have h2 := List.mem_singleton.mp h
        injection h2 with h3 h4 h5
        subst h3
        decide)⟩

/-- C1: in a run where applied-notifications come from configured
replicas (the system model: replicas acknowledge after applying), a
commit callback that was only ever submitted through the
`SYNC`-with-records path and has been invoked must have received an
applied-notification from every configured replica for its transaction
identifier; this holds for every prefix of a run (instantiate `es` with
the prefix), so no such callback fires until every replica has reported.
Moreover no callback is ever invoked more often than it was submitted. -/
theorem sync_callback_fires_only_after_all_replicas {replicas : List String}
    {es : List Event} {st : PrimaryState} {cb : CommitCallback}
    (hrun : run replicas initState es = some st)
    (hsenders : ∀ s mid t, Event.txnApplied s mid t ∈ es → s ∈ replicas)
    (honly : ∀ rb cbs pol, Event.replicate rb cbs pol ∈ es → cb ∈ cbs →
      pol = ReplicationPolicy.SYNC ∧ rb ≠ none)
    (hinv : cb ∈ st.invoked) :
    (∀ r ∈ replicas, ∃ mid, Event.txnApplied r mid cb.txn_start_time_ ∈ es) ∧
    ∀ c, st.invoked.count c ≤ (submittedList es).count c := by
  obtain ⟨_, _, _, hsrc, hcount, _⟩ := run_inv_init hrun
  constructor
  · rcases hsrc cb hinv with ⟨rb, cbs, pol, hmem, hin, hp⟩ | ⟨v, hnd, hlen, hsent⟩
    · obtain ⟨hsync, hrb⟩ := honly rb cbs pol hmem hin
      rcases hp with hp | hp
      · rw [hsync] at hp
        exact absurd hp (by decide)
      · exact absurd hp hrb
    · have hsubset : v ⊆ replicas := by
        intro x hx
        obtain ⟨mid, hmid⟩ := hsent x hx
        exact hsenders x mid cb.txn_start_time_ hmid
      have hperm : v.Perm replicas :=
        (hnd.subperm hsubset).perm_of_length_le (by rw [hlen])
      intro r hr
      exact hsent r (hperm.mem_iff.mpr hr)
  · intro c
    have := hcount c
    omega

/-- The event list of the two-replica `SYNC` witness scenario: one `SYNC`
batch for transaction 5, then applied-notifications from both replicas. -/
def wEsSync : List Event :=
  [Event.replicate (some 0) [⟨5, 0⟩] ReplicationPolicy.SYNC,
   Event.txnApplied "A" 9 5, Event.txnApplied "B" 10 5]

/-- The final state of the two-replica `SYNC` witness scenario. -/
def wStSync : PrimaryState :=
  ⟨[], [], 2, 1, [⟨5, 0⟩], [("A", 0, 1), ("B", 0, 1)], [("A", 9), ("B", 10)]⟩

/-- Witness for `sync_callback_fires_only_after_all_replicas`: in the
two-replica scenario, the fired callback's transaction was acknowledged
by both replicas. -/
theorem sync_callback_fires_only_after_all_replicas_witness :
    (∀ r ∈ (["A", "B"] : List String), ∃ mid,
      Event.txnApplied r mid (⟨5, 0⟩ : CommitCallback).txn_start_time_ ∈ wEsSync) ∧
    ∀ c, wStSync.invoked.count c ≤ (submittedList wEsSync).count c :=
  sync_callback_fires_only_after_all_replicas
    (show run ["A", "B"] initState wEsSync = some wStSync by decide)
    (by
      intro s mid t h
      rcases List.mem_cons.mp h with h | h
      · exact Event.noConfusion h
      · rcases List.mem_cons.mp h with h | h
        · injection h with h1 h2 h3
          subst h1
          decide
        · rcases List.mem_cons.mp h with h | h
          · injection h with h1 h2 h3
            subst h1
            decide
          · exact absurd h (by simp))
    (by
      intro rb cbs pol h hcb
      rcases List.mem_cons.mp h with h | h
      · injection h with h1 h2 h3
        subst h1
        subst h3
        exact ⟨rfl, by simp⟩
      · rcases List.mem_cons.mp h with h | h
        · exact Event.noConfusion h
        · rcases List.mem_cons.mp h with h | h
          · exact Event.noConfusion h
          · exact absurd h (by simp))
    (by decide)

/-- C4: in every reachable state (with distinct submitted callbacks), no
already-invoked callback is still sitting in the queue, and a drain pass
from that state has the release structure of the code: it pops a prefix
of batches each of which has all its callbacks invoked (a no-records
batch is released whole at once), at most the first surviving batch is
partially invoked — its invoked callbacks being a prefix of its list and
removed from the queue entry — and no batch behind the stopping point is
touched. -/
theorem batches_released_only_when_fully_invoked {replicas : List String} {es : List Event}
    {st : PrimaryState}
    (hrun : run replicas initState es = some st)
    (hdist : (submittedList es).Nodup) :
    (∀ c ∈ flattenQ st.txn_callbacks_, c ∉ st.invoked) ∧
    ∀ tbl,
      ((processTxnCallbacks replicas st.txn_callbacks_ tbl).queue = [] ∧
        (processTxnCallbacks replicas st.txn_callbacks_ tbl).fired
          = flattenQ st.txn_callbacks_) ∨
      (∃ popped bb rest pre rem,
        st.txn_callbacks_ = popped ++ bb :: rest ∧
        bb.callbacks_ = pre ++ rem ∧ rem ≠ [] ∧
        (processTxnCallbacks replicas st.txn_callbacks_ tbl).queue = ⟨rem, true⟩ :: rest ∧
        (processTxnCallbacks replicas st.txn_callbacks_ tbl).fired
          = flattenQ popped ++ pre) := by
  obtain ⟨_, _, hqrec, _, hcount, _⟩ := run_inv_init hrun
  constructor
  · intro c hcq hcinv
    have h1 : 0 < (flattenQ st.txn_callbacks_).count c := List.count_pos_iff.mpr hcq
    have h2 : 0 < st.invoked.count c := List.count_pos_iff.mpr hcinv
    have h3 := hcount c
    have h4 : (submittedList es).count c ≤ 1 := List.nodup_iff_count_le_one.mp hdist c
    omega
  · intro tbl
    exact processTxnCallbacks_drain_structure replicas st.txn_callbacks_ tbl hqrec

/-- The final state of the one-batch `ASYNC` witness run. -/
def wStAsync : PrimaryState := ⟨[], [], 2, 1, [⟨1, 0⟩], [("A", 0, 1)], []⟩

/-- Witness for `batches_released_only_when_fully_invoked` on a
one-event `ASYNC` run. -/
theorem batches_released_only_when_fully_invoked_witness :
    (∀ c ∈ flattenQ wStAsync.txn_callbacks_, c ∉ wStAsync.invoked) ∧
    ∀ tbl,
      ((processTxnCallbacks ["A"] wStAsync.txn_callbacks_ tbl).queue = [] ∧
        (processTxnCallbacks ["A"] wStAsync.txn_callbacks_ tbl).fired
          = flattenQ wStAsync.txn_callbacks_) ∨
      (∃ popped bb rest pre rem,
        wStAsync.txn_callbacks_ = popped ++ bb :: rest ∧
        bb.callbacks_ = pre ++ rem ∧ rem ≠ [] ∧
        (processTxnCallbacks ["A"] wStAsync.txn_callbacks_ tbl).queue = ⟨rem, true⟩ :: rest ∧
        (processTxnCallbacks ["A"] wStAsync.txn_callbacks_ tbl).fired
          = flattenQ popped ++ pre) :=
  batches_released_only_when_fully_invoked
    (show run ["A"] initState
        [Event.replicate (some 0) [⟨1, 0⟩] ReplicationPolicy.ASYNC] = some wStAsync
      by decide)
    (by decide)

/-- C2: FIFO release with mandatory head-of-line blocking.  If batch A
(callbacks `cbsA`) is enqueued before batch B (callbacks `cbsB`) — both
via the `SYNC`-with-records path — and the submitted callbacks are
pairwise distinct, then whenever a callback `b` of B has been invoked in
a reachable state, every callback `a` of A has been invoked, and at a
strictly earlier position of the invocation trace: in every decomposition
of the trace around `b`, `a` lies before `b`.  This holds in every
reachable state, in particular at every intermediate point of a run, even
when all of B's transactions are acknowledged before A's: the drain stops
at the first unsatisfied head-batch callback and never looks ahead. -/
theorem fifo_head_of_line_blocking {replicas : List String}
    {l1 l2 l3 : List Event} {ra rbb : Nat} {cbsA cbsB : List CommitCallback}
    {st : PrimaryState} {a b : CommitCallback}
    (hrun : run replicas initState
      (l1 ++ Event.replicate (some ra) cbsA ReplicationPolicy.SYNC
        :: (l2 ++ Event.replicate (some rbb) cbsB ReplicationPolicy.SYNC :: l3))
      = some st)
    (hdist : (submittedList
      (l1 ++ Event.replicate (some ra) cbsA ReplicationPolicy.SYNC
        :: (l2 ++ Event.replicate (some rbb) cbsB ReplicationPolicy.SYNC :: l3))).Nodup)
    (ha : a ∈ cbsA) (hb : b ∈ cbsB) (hbinv : b ∈ st.invoked) :
    a ∈ st.invoked ∧ ∀ l r, st.invoked = l ++ b :: r → a ∈ l := by
  set es : List Event := l1 ++ Event.replicate (some ra) cbsA ReplicationPolicy.SYNC
    :: (l2 ++ Event.replicate (some rbb) cbsB ReplicationPolicy.SYNC :: l3) with hes
  obtain ⟨_, _, _, _, hcount, hord⟩ := run_inv_init hrun
  obtain ⟨dr, hdr1, hdr2⟩ := hord hdist
  have hSnd : (syncSubmitted es).Nodup := hdist.sublist (syncSubmitted_sublist es)
  obtain ⟨cbsB1, cbsB2, hcbsB⟩ := List.append_of_mem hb
  have hSb : syncSubmitted es
      = (syncSubmitted l1 ++ (cbsA ++ (syncSubmitted l2 ++ cbsB1)))
        ++ b :: (cbsB2 ++ syncSubmitted l3) := by
    rw [hes, syncSubmitted_append, syncSubmitted, syncSubmitted_append, syncSubmitted, hcbsB]
    simp [List.append_assoc]
  have haP : a ∈ syncSubmitted l1 ++ (cbsA ++ (syncSubmitted l2 ++ cbsB1)) := by
    simp [ha]
  have hbS : b ∈ syncSubmitted es := by
    rw [hSb]
    simp
  have hbP : b ∉ syncSubmitted l1 ++ (cbsA ++ (syncSubmitted l2 ++ cbsB1)) :=
    (nodup_not_mem_parts (hSb ▸ hSnd)).1
  have hbdr : b ∈ dr := by
    have hbf : b ∈ st.invoked.filter (fun c => decide (c ∈ syncSubmitted es)) :=
      List.mem_filter.mpr ⟨hbinv, decide_eq_true hbS⟩
    rwa [hdr2] at hbf
  constructor
  · obtain ⟨d1, d2, hdr⟩ := List.append_of_mem hbdr
    have hSd : syncSubmitted es = d1 ++ b :: (d2 ++ flattenQ st.txn_callbacks_) := by
      rw [hdr1, hdr]
      simp [List.append_assoc]
    have hbd1 : b ∉ d1 := (nodup_not_mem_parts (hSd ▸ hSnd)).1
    obtain ⟨hP, -⟩ := append_cons_inj (hSb.symm.trans hSd) hbP hbd1
    have had1 : a ∈ d1 := hP ▸ haP
    have hadr : a ∈ dr := hdr ▸ List.mem_append_left _ had1
    have haf : a ∈ st.invoked.filter (fun c => decide (c ∈ syncSubmitted es)) :=
      hdr2.symm ▸ hadr
    exact List.mem_of_mem_filter haf
  · intro l r hsplit
    set p : CommitCallback → Bool := fun c => decide (c ∈ syncSubmitted es) with hp
    have hsubcount : (submittedList es).count b ≤ 1 :=
      List.nodup_iff_count_le_one.mp hdist b
    have hinvcount : st.invoked.count b ≤ 1 := by
      have := hcount b
      omega
    have hbl : b ∉ l := by
      rw [hsplit, List.count_append, List.count_cons_self] at hinvcount
      rw [← List.count_eq_zero]
      omega
    have hdrf : dr = l.filter p ++ b :: r.filter p := by
      rw [← hdr2, hsplit, List.filter_append, List.filter_cons,
        if_pos (show p b = true from decide_eq_true hbS)]
    have hSl : syncSubmitted es
        = l.filter p ++ b :: (r.filter p ++ flattenQ st.txn_callbacks_) := by
      rw [hdr1, hdrf]
      simp [List.append_assoc]
    have hbfl : b ∉ l.filter p := fun hm => hbl (List.mem_of_mem_filter hm)
    obtain ⟨hP, -⟩ := append_cons_inj (hSb.symm.trans hSl) hbP hbfl
    have haf : a ∈ l.filter p := hP ▸ haP
    exact List.mem_of_mem_filter haf

/-- The final state of the head-of-line witness run: two `SYNC` batches
(T1 then T2), T2 acknowledged first, then T1; both fire in enqueue
order. -/
def wStFifo : PrimaryState :=
  ⟨[], [], 3, 2, [⟨1, 0⟩, ⟨2, 0⟩], [("A", 0, 1), ("A", 1, 2)], [("A", 9), ("A", 10)]⟩

/-- Witness for `fifo_head_of_line_blocking` on the spec's two-batch
scenario. -/
theorem fifo_head_of_line_blocking_witness :
    (⟨1, 0⟩ : CommitCallback) ∈ wStFifo.invoked ∧
    ∀ l r, wStFifo.invoked = l ++ (⟨2, 0⟩ : CommitCallback) :: r →
      (⟨1, 0⟩ : CommitCallback) ∈ l :=
  @fifo_head_of_line_blocking ["A"] [] []
    [Event.txnApplied "A" 9 2, Event.txnApplied "A" 10 1] 0 1
    [⟨1, 0⟩] [⟨2, 0⟩] wStFifo ⟨1, 0⟩ ⟨2, 0⟩
    (by decide) (by decide) (by decide) (by decide) (by decide)

/-- C5: delivering the same applied-notification (sender `s`, message
`m`, transaction `t`) twice in a row never invokes any commit callback a
second time and leaves the tracking table uncorrupted: provided the
ledger's table has unique keys (as `std::unordered_map` guarantees) and
at most one queued callback belongs to transaction `t` (transaction start
timestamps identify one in-flight commit), the second delivery leaves the
invocation trace and the callback queue exactly as after the first, and
either leaves the tracking table unchanged or — when the first delivery
fired the transaction's callback and erased its entry — merely re-creates
a tracking entry `(t, {s})` that is never consulted again. -/
theorem duplicate_applied_notification_harmless (replicas : List String)
    (st : PrimaryState) (s : String) (m t : Nat)
    (hkeys : KeysNodup st.txns_applied_on_replicas_)
    (hone : (flattenQ st.txn_callbacks_).countP
      (fun c => decide (c.txn_start_time_ = t)) ≤ 1) :
    (handleTxnApplied replicas (handleTxnApplied replicas st s m t) s m t).invoked
      = (handleTxnApplied replicas st s m t).invoked ∧
    (handleTxnApplied replicas (handleTxnApplied replicas st s m t) s m t).txn_callbacks_
      = (handleTxnApplied replicas st s m t).txn_callbacks_ ∧
    ((handleTxnApplied replicas
          (handleTxnApplied replicas st s m t) s m t).txns_applied_on_replicas_
        = (handleTxnApplied replicas st s m t).txns_applied_on_replicas_ ∨
      (handleTxnApplied replicas
          (handleTxnApplied replicas st s m t) s m t).txns_applied_on_replicas_
        = (handleTxnApplied replicas st s m t).txns_applied_on_replicas_ ++ [(t, [s])]) := by
  have hvl := tableAfter_lookup_self st.txns_applied_on_replicas_ t s
  have hsmem : s ∈ appliedAfter st.txns_applied_on_replicas_ t s := by
    rw [appliedAfter_eq]
    exact insertReplica_mem_self _ _
  have hT1keys := tableAfter_keysNodup hkeys t s
  by_cases hlen : (appliedAfter st.txns_applied_on_replicas_ t s).length = replicas.length
  · obtain ⟨h1q, h1t, h1i, -⟩ := @handle_fields_drain replicas st s m t hlen
    cases hl2 : lookupTable (processTxnCallbacks replicas st.txn_callbacks_
        (tableAfter st.txns_applied_on_replicas_ t s)).table t with
    | some w =>
      have hw := processTxnCallbacks_table_lookup replicas st.txn_callbacks_ hT1keys hl2
      have hwv : w = appliedAfter st.txns_applied_on_replicas_ t s := by
        rw [hvl] at hw
        exact (Option.some.inj hw).symm
      subst hwv
      have htab2 : tableAfter
          (handleTxnApplied replicas st s m t).txns_applied_on_replicas_ t s
          = (processTxnCallbacks replicas st.txn_callbacks_
              (tableAfter st.txns_applied_on_replicas_ t s)).table := by
        rw [h1t]
        exact tableAfter_lookup_some hl2 hsmem
      have hlen2 : (appliedAfter
          (handleTxnApplied replicas st s m t).txns_applied_on_replicas_ t s).length
          = replicas.length := by
        rw [h1t, appliedAfter_lookup_some hl2 hsmem]
        exact hlen
      obtain ⟨h2q, h2t, h2i, -⟩ :=
        @handle_fields_drain replicas (handleTxnApplied replicas st s m t) s m t hlen2
      rw [h1q, htab2, processTxnCallbacks_idem] at h2q h2t h2i
      refine ⟨?_, ?_, Or.inl ?_⟩
      · rw [h2i]
        simp
      · rw [h2q, h1q]
      · rw [h2t, h1t]
    | none =>
      have htab2 : tableAfter
          (handleTxnApplied replicas st s m t).txns_applied_on_replicas_ t s
          = (processTxnCallbacks replicas st.txn_callbacks_
              (tableAfter st.txns_applied_on_replicas_ t s)).table ++ [(t, [s])] := by
        rw [h1t]
        exact tableAfter_none s hl2
      have hstab : processTxnCallbacks replicas
          (processTxnCallbacks replicas st.txn_callbacks_
            (tableAfter st.txns_applied_on_replicas_ t s)).queue
          ((processTxnCallbacks replicas st.txn_callbacks_
            (tableAfter st.txns_applied_on_replicas_ t s)).table ++ [(t, [s])])
          = ⟨(processTxnCallbacks replicas st.txn_callbacks_
              (tableAfter st.txns_applied_on_replicas_ t s)).queue,
            (processTxnCallbacks replicas st.txn_callbacks_
              (tableAfter st.txns_applied_on_replicas_ t s)).table ++ [(t, [s])], []⟩ := by
        rcases processTxnCallbacks_queue_shape replicas st.txn_callbacks_
          (tableAfter st.txns_applied_on_replicas_ t s) with hsh | ⟨c, rest2, tail, hsh, hfalse⟩
        · rw [hsh]
          rfl
        · obtain ⟨c0, hc0f, hc0t⟩ :=
            processTxnCallbacks_erased_key replicas st.txn_callbacks_ hT1keys hvl hl2
          have hct : c.txn_start_time_ ≠ t := by
            intro hceq
            have hcons := processTxnCallbacks_conserves replicas st.txn_callbacks_
              (tableAfter st.txns_applied_on_replicas_ t s)
            have h1 : 0 < ((processTxnCallbacks replicas st.txn_callbacks_
                (tableAfter st.txns_applied_on_replicas_ t s)).fired).countP
                  (fun c => decide (c.txn_start_time_ = t)) :=
              List.countP_pos_iff.mpr ⟨c0, hc0f, by simp [hc0t]⟩
            have h2 : 0 < (flattenQ (processTxnCallbacks replicas st.txn_callbacks_
                (tableAfter st.txns_applied_on_replicas_ t s)).queue).countP
                  (fun c => decide (c.txn_start_time_ = t)) := by
              refine List.countP_pos_iff.mpr ⟨c, ?_, by simp [hceq]⟩
              rw [hsh, flattenQ_cons]
              exact List.mem_append_left _ (List.mem_cons_self _ _)
            have h3 : (flattenQ st.txn_callbacks_).countP
                (fun c => decide (c.txn_start_time_ = t))
                = ((processTxnCallbacks replicas st.txn_callbacks_
                    (tableAfter st.txns_applied_on_replicas_ t s)).fired).countP
                      (fun c => decide (c.txn_start_time_ = t))
                  + (flattenQ (processTxnCallbacks replicas st.txn_callbacks_
                      (tableAfter st.txns_applied_on_replicas_ t s)).queue).countP
                      (fun c => decide (c.txn_start_time_ = t)) := by
              rw [hcons, List.countP_append]
            omega
          have hfalse2 : allReplicasApplied replicas
              ((processTxnCallbacks replicas st.txn_callbacks_
                (tableAfter st.txns_applied_on_replicas_ t s)).table ++ [(t, [s])])
              c.txn_start_time_ = false := by
            rw [allReplicasApplied_append_ne _ hct]
            exact hfalse
          rw [hsh]
          exact processTxnCallbacks_stable replicas (Or.inr ⟨c, rest2, tail, rfl, hfalse2⟩)
      by_cases hlen2 : (appliedAfter
          (handleTxnApplied replicas st s m t).txns_applied_on_replicas_ t s).length
          = replicas.length
      · obtain ⟨h2q, h2t, h2i, -⟩ :=
          @handle_fields_drain replicas (handleTxnApplied replicas st s m t) s m t hlen2
        rw [h1q, htab2, hstab] at h2q h2t h2i
        refine ⟨?_, ?_, Or.inr ?_⟩
        · rw [h2i]
          simp
        · rw [h2q, h1q]
        · rw [h2t, h1t]
      · obtain ⟨h2q, h2t, h2i, -⟩ :=
          @handle_fields_nodrain replicas (handleTxnApplied replicas st s m t) s m t hlen2
        refine ⟨h2i, h2q, Or.inr ?_⟩
        rw [h2t, h1t]
        exact tableAfter_none s hl2
  · obtain ⟨h1q, h1t, h1i, -⟩ := @handle_fields_nodrain replicas st s m t hlen
    have hlen2 : ¬(appliedAfter
        (handleTxnApplied replicas st s m t).txns_applied_on_replicas_ t s).length
        = replicas.length := by
      rw [h1t, appliedAfter_lookup_some hvl hsmem]
      exact hlen
    obtain ⟨h2q, h2t, h2i, -⟩ :=
      @handle_fields_nodrain replicas (handleTxnApplied replicas st s m t) s m t hlen2
    refine ⟨h2i, h2q, Or.inl ?_⟩
    rw [h2t, h1t]
    exact tableAfter_lookup_some hvl hsmem

/-- A one-replica... two-replica state for the duplicate-notification
witness: one `SYNC` batch for transaction 5 with replica `"A"` already
recorded; the duplicated notification comes from `"B"`. -/
def wStDup : PrimaryState := ⟨[⟨[⟨5, 0⟩], true⟩], [(5, ["A"])], 1, 0, [], [], []⟩

/-- Witness for `duplicate_applied_notification_harmless`: the first
`"B"` notification completes the set and fires the callback; the
duplicate leaves the trace and queue unchanged and only re-creates a
benign `(5, ["B"])` entry. -/
theorem duplicate_applied_notification_harmless_witness :
    KeysNodup wStDup.txns_applied_on_replicas_ ∧
    (flattenQ wStDup.txn_callbacks_).countP
      (fun c => decide (c.txn_start_time_ = 5)) ≤ 1 ∧
    ((handleTxnApplied ["A", "B"]
        (handleTxnApplied ["A", "B"] wStDup "B" 9 5) "B" 9 5).invoked
      = (handleTxnApplied ["A", "B"] wStDup "B" 9 5).invoked ∧
    (handleTxnApplied ["A", "B"]
        (handleTxnApplied ["A", "B"] wStDup "B" 9 5) "B" 9 5).txn_callbacks_
      = (handleTxnApplied ["A", "B"] wStDup "B" 9 5).txn_callbacks_ ∧
    ((handleTxnApplied ["A", "B"]
          (handleTxnApplied ["A", "B"] wStDup "B" 9 5) "B" 9 5).txns_applied_on_replicas_
        = (handleTxnApplied ["A", "B"] wStDup "B" 9 5).txns_applied_on_replicas_ ∨
      (handleTxnApplied ["A", "B"]
          (handleTxnApplied ["A", "B"] wStDup "B" 9 5) "B" 9 5).txns_applied_on_replicas_
        = (handleTxnApplied ["A", "B"] wStDup "B" 9 5).txns_applied_on_replicas_
          ++ [(5, ["B"])])) :=
  ⟨show (wStDup.txns_applied_on_replicas_.map Prod.fst).Nodup by decide, by decide,
    duplicate_applied_notification_harmless ["A", "B"] wStDup "B" 9 5
      (show (wStDup.txns_applied_on_replicas_.map Prod.fst).Nodup by decide) (by decide)⟩

end Replication
